import Mathlib

/-!
# Receipt processor: points calculation

A shallow embedding of `main.go` (the points rule engine and the two HTTP
handlers) together with the parts of the Go standard library that they are
built on:

* `float64` arithmetic (`strconv.ParseFloat`, `*`, `math.Ceil`, `int(f)`),
  modelled exactly: a finite value is a sign and a magnitude `m * 2^e`, and
  every operation rounds the exact result to the nearest binary64 value, ties
  to even;
* `fmt.Sscanf(priceStr, "%f", &price)`;
* `time.Parse` for the layouts `"2006-01-02"` and `"15:04"`;
* `strings.TrimSpace`, `strings.HasSuffix` and `strings.Split`.

Go strings are modelled by Lean `String`s, i.e. by valid UTF-8 text (every
string produced by `encoding/json` is valid UTF-8).  `len(s)` is the number of
bytes of the UTF-8 encoding, `range s` walks the code points.  `int` is the
64-bit signed integer type of 64-bit Go targets.

The handlers are transitions on the map `receipts`, one request at a time;
the JSON decoding of the request body and the generated identifier are inputs
of the transition.
-/

namespace ReceiptProcessor

/-! ## Go `int` -/

/-- Two's-complement wrap-around of an integer into the range of a 64-bit `int`. -/
def wrapInt (x : Int) : Int := (x + 9223372036854775808) % 18446744073709551616 - 9223372036854775808

/-- Go `a + b` on `int` operands. -/
def addInt (a b : Int) : Int := wrapInt (a + b)

/-- Go `a % b` on `int` operands: the remainder has the sign of the dividend. -/
def remInt (a b : Int) : Int := Int.tmod a b

/-! ## binary64 -/

/-- A `float64` value.  `fin neg m e` is the finite value `(-1)^neg * m * 2^e`
(several triples may denote the same value), `inf neg` is an infinity. -/
inductive F64 where
  | fin (neg : Bool) (m : Nat) (e : Int)
  | inf (neg : Bool)
  | nan
  deriving Repr, DecidableEq

/-- Round half to even of the quotient `n / d`. -/
def roundHalfEven (n d : Nat) : Nat :=
  let q := n / d
  let r := n % d
  if 2 * r > d then q + 1
  else if 2 * r = d then (if q % 2 = 1 then q + 1 else q)
  else q

/-- Position of the leading binary digit, `floor (log2 n)` for `n >= 1`
(`fuel` bounds the number of halvings; `n` itself always suffices). -/
def log2Fuel : Nat → Nat → Nat
  | 0, _ => 0
  | fuel + 1, n => if n ≥ 2 then log2Fuel fuel (n / 2) + 1 else 0

/-- The value `floor (log2 n)` for `n >= 1`, and `0` for `n = 0`. -/
def log2 (n : Nat) : Nat := log2Fuel n n

/-- The binary exponent of the unit in the last place of the binary64 value
nearest to the positive rational `n / d`: the `e` with
`2^52 <= n / (d * 2^e) < 2^53`, but never below `-1074` (subnormal range). -/
def ulpExp (n d : Nat) : Int :=
  let e0 : Int := (log2 n : Int) - (log2 d : Int) - 52
  -- `n / d` lies in `[2^(e0+51), 2^(e0+53))`
  let e1 : Int := if n * 2 ^ (-e0).toNat < d * 2 ^ e0.toNat * 4503599627370496 then e0 - 1 else e0
  max e1 (-1074)

/-- The binary64 value nearest to the exact rational `(-1)^neg * n / d`
(`d > 0`), ties to even; a magnitude that rounds past the largest finite value
becomes an infinity. -/
def roundF64 (neg : Bool) (n d : Nat) : F64 :=
  if n = 0 then F64.fin neg 0 0
  else
    let e := ulpExp n d
    let m := roundHalfEven (n * 2 ^ (-e).toNat) (d * 2 ^ e.toNat)
    if e > 971 ∨ (e = 971 ∧ m ≥ 9007199254740992) then F64.inf neg
    else F64.fin neg m e

/-- The exact rational `m * 2^e` as a fraction `(numerator, denominator)`. -/
def dyadic (m : Nat) (e : Int) : Nat × Nat := (m * 2 ^ e.toNat, 2 ^ (-e).toNat)

/-- Go `x * y` on `float64` operands (IEEE 754 multiplication). -/
def F64.mul : F64 → F64 → F64
  | F64.nan, _ => F64.nan
  | _, F64.nan => F64.nan
  | F64.inf s, F64.inf t => F64.inf (xor s t)
  | F64.inf s, F64.fin t m _ => if m = 0 then F64.nan else F64.inf (xor s t)
  | F64.fin s m _, F64.inf t => if m = 0 then F64.nan else F64.inf (xor s t)
  | F64.fin s m e, F64.fin t k f =>
    let p := dyadic (m * k) (e + f)
    roundF64 (xor s t) p.1 p.2

/-- Go `math.Ceil(x)`: the least integer value not below `x`; infinities and
NaN are returned unchanged. -/
def F64.ceil : F64 → F64
  | F64.fin neg m e =>
    if e ≥ 0 then F64.fin neg m e
    else
      let d := 2 ^ (-e).toNat
      if neg then F64.fin true (m / d) 0
      else F64.fin false (if m % d = 0 then m / d else m / d + 1) 0
  | x => x

/-- The integer part (truncation toward zero) of a finite value. -/
def truncFin (neg : Bool) (m : Nat) (e : Int) : Int :=
  let a : Nat := if e ≥ 0 then m * 2 ^ e.toNat else m / 2 ^ (-e).toNat
  if neg then -(a : Int) else (a : Int)

/-- Go `int(x)` for a `float64` `x`.  The fraction is discarded.  When the
truncated value does not fit the 64-bit `int` (or `x` is an infinity or NaN)
the Go specification leaves the result implementation-dependent; `conv`
supplies that result (some value of type `int`). -/
def F64.toInt (conv : F64 → Int) : F64 → Int
  | F64.fin neg m e =>
    let t := truncFin neg m e
    if -9223372036854775808 ≤ t ∧ t ≤ 9223372036854775807 then t
    else wrapInt (conv (F64.fin neg m e))
  | x => wrapInt (conv x)

/-- The out-of-range conversion of amd64 (`CVTTSD2SQ`): the "integer
indefinite" value `-2^63`. -/
def convAmd64 : F64 → Int := fun _ => -9223372036854775808

/-- The constant `100` converted to `float64`. -/
def f100 : F64 := F64.fin false 100 0

/-- The constant `0.2` converted to `float64` (nearest binary64 value to 1/5). -/
def f0_2 : F64 := roundF64 false 1 5

/-- The zero value of a `float64` variable. -/
def fzero : F64 := F64.fin false 0 0

/-! ## `strconv.ParseFloat` and `strconv.Atoi` -/

/-- The byte test `'0' <= c && c <= '9'`. -/
def isDecDigit (c : Char) : Bool := decide (48 ≤ c.toNat ∧ c.toNat ≤ 57)

/-- The `strconv` helper `lower(c) = c | ('x' - 'X')`, on the character code. -/
def lower (c : Char) : Nat := c.toNat ||| 32

/-- The test `'a' <= lower(c) && lower(c) <= 'f'` for a hexadecimal letter. -/
def isHexLetter (c : Char) : Bool := decide (97 ≤ lower c ∧ lower c ≤ 102)

/-- The `strconv` function `commonPrefixLenIgnoreCase(s, prefix)`; `prefix` is lower case. -/
def commonPrefixLenIgnoreCase : List Char → List Char → Nat
  | c :: s, p :: pre =>
    let c1 : Nat := if 65 ≤ c.toNat ∧ c.toNat ≤ 90 then c.toNat + 32 else c.toNat
    if c1 = p.toNat then commonPrefixLenIgnoreCase s pre + 1 else 0
  | _, _ => 0

/-- The inner part of `special` once a sign has been taken off: "inf" or "infinity". -/
def specialInf (neg : Bool) (nsign : Nat) (s : List Char) : Option (F64 × Nat) :=
  let n0 := commonPrefixLenIgnoreCase s "infinity".data
  let n := if 3 < n0 ∧ n0 < 8 then 3 else n0
  if n = 3 ∨ n = 8 then some (F64.inf neg, nsign + n) else none

/-- The `strconv` function `special(s)`: the value and the number of bytes
consumed when `s` starts with a (signed) infinity or a NaN. -/
def special : List Char → Option (F64 × Nat)
  | [] => none
  | c :: s =>
    if c = '+' then specialInf false 1 s
    else if c = '-' then specialInf true 1 s
    else if c = 'i' ∨ c = 'I' then specialInf false 0 (c :: s)
    else if c = 'n' ∨ c = 'N' then
      (if commonPrefixLenIgnoreCase (c :: s) "nan".data = 3 then some (F64.nan, 3) else none)
    else none

/-- Loop state of `readFloat`.  `mantissa` collects every digit after the
leading zeros and `nd` counts them (the library keeps the first 19 digits, notes
whether a non-zero digit was dropped and re-reads the full digit string on its
slow path, so that its result is the correctly rounded one). -/
structure ReadState where
  mantissa : Nat
  nd : Nat
  dp : Int
  sawdot : Bool
  sawdigits : Bool
  underscores : Bool

/-- The digit loop of `readFloat` (`base` is 10 or 16); returns the state and the unread rest. -/
def readDigits (base : Nat) : List Char → ReadState → ReadState × List Char
  | [], st => (st, [])
  | c :: cs, st =>
    if c = '_' then readDigits base cs { st with underscores := true }
    else if c = '.' then
      (if st.sawdot then (st, c :: cs)
       else readDigits base cs { st with sawdot := true, dp := st.nd })
    else if isDecDigit c then
      (if c = '0' ∧ st.nd = 0 then
         readDigits base cs { st with sawdigits := true, dp := st.dp - 1 }
       else
         readDigits base cs { st with sawdigits := true, nd := st.nd + 1,
                                      mantissa := st.mantissa * base + (c.toNat - 48) })
    else if base = 16 ∧ isHexLetter c then
      readDigits base cs { st with sawdigits := true, nd := st.nd + 1,
                                   mantissa := st.mantissa * 16 + (lower c - 97 + 10) }
    else (st, c :: cs)

/-- The exponent digit loop of `readFloat`: digits and underscores, the value
no longer grows once it has reached 10000.  Returns the exponent, whether an
underscore was seen, and the unread rest. -/
def readExpDigits : List Char → Nat → Bool → Nat × Bool × List Char
  | [], e, u => (e, u, [])
  | c :: cs, e, u =>
    if c = '_' then readExpDigits cs e true
    else if isDecDigit c then readExpDigits cs (if e < 10000 then e * 10 + (c.toNat - 48) else e) u
    else (e, u, c :: cs)

/-- State machine of `underscoreOK`: `saw` is `0` at the beginning, `1` after a
digit, `2` after an underscore and `3` after anything else. -/
def underscoreLoop (hex : Bool) : List Char → Nat → Bool
  | [], saw => saw != 2
  | c :: cs, saw =>
    if isDecDigit c ∨ (hex ∧ isHexLetter c) then underscoreLoop hex cs 1
    else if c = '_' then (if saw != 1 then false else underscoreLoop hex cs 2)
    else if saw = 2 then false
    else underscoreLoop hex cs 3

/-- The `strconv` function `underscoreOK(s)`: underscores only separate digits
(or follow a base prefix). -/
def underscoreOK (s : List Char) : Bool :=
  let s1 := match s with
    | c :: cs => if c = '-' ∨ c = '+' then cs else s
    | [] => s
  match s1 with
  | c0 :: c1 :: cs =>
    if c0 = '0' ∧ (lower c1 = 98 ∨ lower c1 = 111 ∨ lower c1 = 120) then
      underscoreLoop (lower c1 = 120) cs 1
    else underscoreLoop false s1 0
  | _ => underscoreLoop false s1 0

/-- Result of `readFloat`: the number read is `(-1)^neg * mantissa * base^exp`
with `base` 2 for a hexadecimal literal and 10 otherwise; `rest` is the input
that was not consumed. -/
structure ReadFloat where
  neg : Bool
  mantissa : Nat
  exp : Int
  hex : Bool
  rest : List Char

/-- The `strconv` function `readFloat(s)`; `none` when it reports `ok = false`. -/
def readFloat (s : List Char) : Option ReadFloat :=
  match s with
  | [] => none
  | c :: cs =>
    -- optional sign
    let neg := decide (c = '-')
    let s1 := if c = '+' ∨ c = '-' then cs else s
    -- base prefix (needs at least one more byte after the prefix)
    let hex : Bool := match s1 with
      | c0 :: c1 :: _ :: _ => decide (c0 = '0' ∧ lower c1 = 120)
      | _ => false
    let s2 := if hex then s1.drop 2 else s1
    let base := if hex then 16 else 10
    let (st, s3) := readDigits base s2 ⟨0, 0, 0, false, false, false⟩
    if ¬ st.sawdigits then none
    else
      let dp0 : Int := if st.sawdot then st.dp else st.nd
      -- in base 16 the point and the digit count are measured in bits
      let dp1 : Int := if hex then dp0 * 4 else dp0
      let ndBits : Int := if hex then (st.nd : Int) * 4 else st.nd
      let finish (dp : Int) (underscores : Bool) (rest : List Char) : Option ReadFloat :=
        let exp : Int := if st.mantissa ≠ 0 then dp - ndBits else 0
        if underscores ∧ ¬ underscoreOK (s.take (s.length - rest.length)) then none
        else some ⟨neg, st.mantissa, exp, hex, rest⟩
      match s3 with
      | x :: s4 =>
        if lower x = (if hex then 112 else 101) then
          -- optional exponent
          match s4 with
          | [] => none
          | y :: s5 =>
            let esign : Int := if y = '-' then -1 else 1
            let s6 := if y = '+' ∨ y = '-' then s5 else s4
            match s6 with
            | [] => none
            | z :: _ =>
              if ¬ isDecDigit z then none
              else
                let (e, u, rest) := readExpDigits s6 0 st.underscores
                finish (dp1 + (e : Int) * esign) u rest
        else if hex then none
        else finish dp1 st.underscores s3
      | [] => if hex then none else finish dp1 st.underscores s3

/-- The call `strconv.ParseFloat(s, 64)`: the binary64 value nearest to the
number written in `s`; `none` when an error is returned (bad syntax, unread
trailing input, or a magnitude that rounds to an infinity). -/
def ParseFloat (s : List Char) : Option F64 :=
  match special s with
  | some (f, n) => if n = s.length then some f else none
  | none =>
    match readFloat s with
    | none => none
    | some r =>
      if r.rest ≠ [] then none
      else
        let b : Nat := if r.hex then 2 else 10
        match roundF64 r.neg (r.mantissa * b ^ r.exp.toNat) (b ^ (-r.exp).toNat) with
        | F64.inf _ => none
        | f => some f

/-- Value of a string of decimal digits; `none` if the string is empty or holds another byte. -/
def digitsValue : List Char → Option Nat
  | [] => none
  | cs => cs.foldl (fun acc c => match acc with
      | some n => if isDecDigit c then some (n * 10 + (c.toNat - 48)) else none
      | none => none) (some 0)

/-- The call `strconv.Atoi(s)`: an optionally signed string of decimal digits
whose value fits the 64-bit `int`; `none` when an error is returned. -/
def Atoi (s : List Char) : Option Int :=
  match s with
  | [] => none
  | c :: cs =>
    let ds := if c = '-' ∨ c = '+' then cs else s
    match digitsValue ds with
    | none => none
    | some n =>
      let v : Int := if c = '-' then -(n : Int) else n
      if -9223372036854775808 ≤ v ∧ v ≤ 9223372036854775807 then some v else none

/-- The call `math.Ldexp(frac, exp)`, that is `frac * 2^exp`.  The library
adds the binary exponent of `frac` to `exp` in `int` arithmetic before it
tests for underflow and overflow. -/
def Ldexp (frac : F64) (exp : Int) : F64 :=
  match frac with
  | F64.fin neg m e =>
    if m = 0 then frac
    else
      -- `normalize` scales a subnormal `frac` by `2^52` and reports `-52`
      let l : Int := (log2 m : Int) + e
      let en : Int := if l < -1022 then -52 else 0
      let exp1 := addInt exp en
      let exp2 := addInt exp1 (l - en)
      if exp2 < -1075 then F64.fin neg 0 0
      else if exp2 > 1023 then F64.inf neg
      else
        let p := dyadic m (e + (exp2 - l))
        roundF64 neg p.1 p.2
  | x => x

/-! ## `fmt.Sscanf(str, "%f", &price)` -/

/-- The white space table `space` of `fmt` with its lookup `isSpace`. -/
def fmtIsSpace (r : Char) : Bool :=
  let x := r.toNat
  decide ((9 ≤ x ∧ x ≤ 13) ∨ x = 32 ∨ x = 133 ∨ x = 160 ∨ x = 5760 ∨ (8192 ≤ x ∧ x ≤ 8202) ∨
    (8232 ≤ x ∧ x ≤ 8233) ∨ x = 8239 ∨ x = 8287 ∨ x = 12288)

/-- The scanner limit `hugeWid = 1 << 30`: `ReadRune` reports end of input
once that many runes have been read. -/
def hugeWid : Nat := 1073741824

/-- The part of the scanner `ss` that `floatToken` uses: the unread runes and
the token buffer. -/
structure ss where
  input : List Char
  buf : List Char

/-- The method `s.accept(ok)`: consume the next rune into `buf` if it occurs in `ok`. -/
def ss.accept (s : ss) (ok : String) : Bool × ss :=
  match s.input with
  | [] => (false, s)
  | r :: rest => if r ∈ ok.data then (true, ⟨rest, s.buf ++ [r]⟩) else (false, s)

/-- The loop `for s.accept(ok) {}`. -/
def acceptLoop (ok : String) : List Char → List Char → ss
  | [], buf => ⟨[], buf⟩
  | r :: rest, buf => if r ∈ ok.data then acceptLoop ok rest (buf ++ [r]) else ⟨r :: rest, buf⟩

/-- The method `s.SkipSpace()` of a scanner in which newlines are not spaces
(`Sscanf`); `none` is the "unexpected newline" error. -/
def SkipSpace : List Char → Option (List Char)
  | [] => some []
  | r :: rest =>
    if r = '\r' ∧ rest.head? = some '\n' then SkipSpace rest
    else if r = '\n' then none
    else if ¬ fmtIsSpace r then some (r :: rest)
    else SkipSpace rest

/-- The method `s.floatToken()`: the longest prefix of the input that looks
like a floating-point number. -/
def floatToken (s0 : ss) : List Char :=
  let s : ss := { s0 with buf := [] }
  -- NaN?
  let (a, s) := s.accept "nN"
  let (b, s) := if a then s.accept "aA" else (false, s)
  let (c, s) := if b then s.accept "nN" else (false, s)
  if c then s.buf
  else
    -- leading sign?
    let (_, s) := s.accept "+-"
    -- Inf?
    let (a, s) := s.accept "iI"
    let (b, s) := if a then s.accept "nN" else (false, s)
    let (c, s) := if b then s.accept "fF" else (false, s)
    if c then s.buf
    else
      let (z, s) := s.accept "0"
      let (x, s) := if z then s.accept "xX" else (false, s)
      let digits := if x then "0123456789aAbBcCdDeEfF_" else "0123456789_"
      let exp := if x then "pP" else "eEpP"
      -- digits?
      let s := acceptLoop digits s.input s.buf
      -- decimal point and fraction?
      let (d, s) := s.accept "."
      let s := if d then acceptLoop digits s.input s.buf else s
      -- exponent?
      let (e, s) := s.accept exp
      if e then
        let (_, s) := s.accept "+-"
        (acceptLoop "0123456789_" s.input s.buf).buf
      else s.buf

/-- The method `s.convertFloat(str, 64)`; `none` when it raises a scan error. -/
def convertFloat (str : List Char) : Option F64 :=
  if str.contains 'p' ∧ ¬ (str.contains 'x' ∨ str.contains 'X') then
    -- decimal mantissa with a binary exponent, as in `1.5p4`
    let p := str.indexOf 'p'
    match ParseFloat (str.take p), Atoi (str.drop (p + 1)) with
    | some f, some m => some (Ldexp f m)
    | _, _ => none
  else ParseFloat str

/-- The call `fmt.Sscanf(str, "%f", &price)`: the value stored into `price`,
or `none` when an error is returned and `price` is left untouched. -/
def Sscanf (str : String) : Option F64 :=
  match SkipSpace (str.data.take hugeWid) with
  | none => none
  | some [] => none  -- unexpected end of input
  | some input => convertFloat (floatToken ⟨input, []⟩)

/-! ## `time.Parse` -/

/-- The `time` helper `isDigit(s, i)`. -/
def isDigit (s : List Char) (i : Nat) : Bool :=
  match s.get? i with
  | some c => isDecDigit c
  | none => false

/-- The `time` helper `getnum(s, fixed)`: a number of one or two digits (two if `fixed`). -/
def getnum (s : List Char) (fixed : Bool) : Option (Nat × List Char) :=
  if ¬ isDigit s 0 then none
  else if ¬ isDigit s 1 then
    (if fixed then none else some ((s.headD '0').toNat - 48, s.drop 1))
  else some (((s.headD '0').toNat - 48) * 10 + ((s.getD 1 '0').toNat - 48), s.drop 2)

/-- The `time` helper `skip(value, prefix)` for a one-byte prefix other than a space. -/
def skip (value : List Char) (pre : Char) : Option (List Char) :=
  match value with
  | c :: rest => if c = pre then some rest else none
  | [] => none

/-- The `time` helper `isLeap(year)`. -/
def isLeap (year : Nat) : Bool := year % 4 = 0 ∧ (year % 100 ≠ 0 ∨ year % 400 = 0)

/-- The `time` helper `daysIn(m, year)`. -/
def daysIn (m year : Nat) : Nat :=
  if m = 2 ∧ isLeap year then 29
  else match m with
    | 1 => 31 | 2 => 28 | 3 => 31 | 4 => 30 | 5 => 31 | 6 => 30
    | 7 => 31 | 8 => 31 | 9 => 30 | 10 => 31 | 11 => 30 | 12 => 31
    | _ => 0

/-- The chunk `stdLongYear` of `time.Parse`: the year is the first four bytes
of the value, all of them digits (`atoi(value[0:4])`). -/
def parseYear (value : List Char) : Option (Nat × List Char) :=
  if value.length < 4 ∨ ¬ isDigit value 0 then none
  else match digitsValue (value.take 4) with
    | none => none
    | some year => some (year, value.drop 4)

/-- The call `time.Parse("2006-01-02", value)`: year, month and day of the
parsed date, `none` when an error is returned.  The layout is the chunk
sequence four-digit year, `-`, two-digit month, `-`, two-digit day, end. -/
def parseDate (value : List Char) : Option (Nat × Nat × Nat) := do
  -- stdLongYear
  let (year, v0) ← parseYear value
  let v1 ← skip v0 '-'
  -- stdZeroMonth
  let (month, v2) ← getnum v1 true
  if month ≤ 0 ∨ 12 < month then none  -- month out of range
  else
    let v3 ← skip v2 '-'
    -- stdZeroDay: any two-digit day is read here
    let (day, v4) ← getnum v3 true
    if v4 ≠ [] then none  -- extra text
    else if day < 1 ∨ day > daysIn month year then none  -- day out of range
    else some (year, month, day)

/-- The call `time.Parse("15:04", value)`: hour and minute of the parsed time,
`none` when an error is returned.  The layout is the chunk sequence hour (one
or two digits), `:`, two-digit minute, end. -/
def parseClock (value : List Char) : Option (Nat × Nat) := do
  -- stdHour
  let (hour, v1) ← getnum value false
  if 24 ≤ hour then none  -- hour out of range
  else
    let v2 ← skip v1 ':'
    -- stdZeroMinute
    let (min, v3) ← getnum v2 true
    if 60 ≤ min then none  -- minute out of range
    else if v3 ≠ [] then none  -- extra text
    else some (hour, min)

/-! ## `strings` and `unicode` -/

/-- The function `unicode.IsSpace(r)`. -/
def unicodeIsSpace (r : Char) : Bool :=
  let x := r.toNat
  if x ≤ 255 then decide (x = 9 ∨ x = 10 ∨ x = 11 ∨ x = 12 ∨ x = 13 ∨ x = 32 ∨ x = 133 ∨ x = 160)
  else decide (x = 5760 ∨ (8192 ≤ x ∧ x ≤ 8202) ∨ x = 8232 ∨ x = 8233 ∨ x = 8239 ∨ x = 8287 ∨ x = 12288)

/-- The function `strings.TrimSpace(s)`: `s` without its leading and trailing white space. -/
def TrimSpace (s : String) : String :=
  ⟨((s.data.dropWhile unicodeIsSpace).reverse.dropWhile unicodeIsSpace).reverse⟩

/-- The builtin `len(s)` of a string: its length in bytes. -/
def len (s : String) : Nat := s.utf8ByteSize

/-- The function `strings.HasSuffix(s, suffix)`:
`len(s) >= len(suffix) && s[len(s)-len(suffix):] == suffix`. -/
def HasSuffix (s suffix : String) : Bool :=
  decide (s.data.length ≥ suffix.data.length ∧
    s.data.drop (s.data.length - suffix.data.length) = suffix.data)

/-- The call `strings.Split(s, "/")`: the pieces of `s` between the slashes
(one piece more than there are slashes; `[""]` for the empty string). -/
def Split : List Char → List (List Char)
  | [] => [[]]
  | c :: cs =>
    if c = '/' then [] :: Split cs
    else match Split cs with
      | [] => [[c]]
      | p :: ps => (c :: p) :: ps

/-! ## `main.go` -/

/-- The struct `Item`. -/
structure Item where
  ShortDescription : String
  Price : String
  deriving Repr, DecidableEq

/-- The struct `Receipt`. -/
structure Receipt where
  ID : String
  Retailer : String
  PurchaseDate : String
  PurchaseTime : String
  Items : List Item
  Total : String
  Points : Int
  deriving Repr, DecidableEq

/-- The function `parsePrice`: the scanned price (zero if nothing was stored)
and whether an error is returned. -/
def parsePrice (priceStr : String) : F64 × Bool :=
  match Sscanf priceStr with
  | some price => (price, false)
  | none => (fzero, true)

/-- The function `isAlphanumeric`. -/
def isAlphanumeric (r : Char) : Bool :=
  (decide (r ≥ 'a') && decide (r ≤ 'z')) || (decide (r ≥ 'A') && decide (r ≤ 'Z')) ||
    (decide (r ≥ '0') && decide (r ≤ '9'))

/-- The function `isRoundDollar`. -/
def isRoundDollar (total : String) : Bool := HasSuffix total ".00"

/-- The function `isMultipleOfQuarter`: `int(price*100)%25 == 0`. -/
def isMultipleOfQuarter (conv : F64 → Int) (total : String) : Bool :=
  let price := (parsePrice total).1
  remInt (F64.toInt conv (F64.mul price f100)) 25 == 0

/-- The function `isOddDay`. -/
def isOddDay (date : String) : Bool :=
  match parseDate date.data with
  | none => false
  | some (_, _, day) => day % 2 != 0

/-- The function `isInAfternoonRange`. -/
def isInAfternoonRange (timeStr : String) : Bool :=
  match parseClock timeStr.data with
  | none => false
  | some (hour, _) => hour == 14

/-- Rule 1 of `calculatePoints`: the counter `retailerPoints` after the loop
over the runes of the retailer name.  (The counter cannot overflow: it is
bounded by `len(receipt.Retailer)`, an `int`.) -/
def retailerPoints (retailer : String) : Int :=
  retailer.data.foldl (fun n char => if isAlphanumeric char then n + 1 else n) 0

/-- Rule 4 of `calculatePoints`: `(len(receipt.Items) / 2) * 5`.  (No
overflow: the items of a slice occupy 32 bytes each of a 64-bit address space.) -/
def itemPairPoints (items : List Item) : Int := ((items.length / 2 : Nat) : Int) * 5

/-- Rule 5 of `calculatePoints`, inside the length test:
`int(math.Ceil(price * 0.2))` for the parsed price of an item. -/
def itemPoints (conv : F64 → Int) (item : Item) : Int :=
  let price := (parsePrice item.Price).1
  F64.toInt conv (F64.ceil (F64.mul price f0_2))

/-- Rule 5 of `calculatePoints`: the accumulator `itemDescriptionPoints` after
the loop over the items. -/
def itemDescriptionPoints (conv : F64 → Int) (items : List Item) : Int :=
  items.foldl (fun acc item =>
    let desc := TrimSpace item.ShortDescription
    let descLength := len desc
    if descLength % 3 = 0 then addInt acc (itemPoints conv item) else acc) 0

/-- The function `calculatePoints`. -/
def calculatePoints (conv : F64 → Int) (receipt : Receipt) : Int :=
  let points : Int := 0
  -- Rule 1: points for each alphanumeric character in retailer name
  let points := addInt points (retailerPoints receipt.Retailer)
  -- Rule 2: 50 points if the total is a round dollar amount
  let points := if isRoundDollar receipt.Total then addInt points 50 else points
  -- Rule 3: 25 points if the total is a multiple of 0.25
  let points := if isMultipleOfQuarter conv receipt.Total then addInt points 25 else points
  -- Rule 4: 5 points for every two items
  let points := addInt points (itemPairPoints receipt.Items)
  -- Rule 5: additional points for item description length
  let points := addInt points (itemDescriptionPoints conv receipt.Items)
  -- Rule 6: 6 points if the purchase day is odd
  let points := if isOddDay receipt.PurchaseDate then addInt points 6 else points
  -- Rule 7: 10 points if the time is between 2:00pm and 4:00pm
  let points := if isInAfternoonRange receipt.PurchaseTime then addInt points 10 else points
  points

/-- The global map `receipts`, from identifier to stored receipt. -/
abbrev Store := String → Option Receipt

/-- The map `make(map[string]Receipt)` with which `receipts` starts. -/
def emptyStore : Store := fun _ => none

/-- What the handlers read of an `*http.Request`: the method, `r.URL.Path`,
and the outcome of `json.NewDecoder(r.Body).Decode(&receipt)` on a zero
`Receipt` (the decoded receipt, or the text of the error). -/
structure Request where
  Method : String
  Path : String
  Body : Except String Receipt

/-- The body written to the `http.ResponseWriter`: the message of an
`http.Error`, or the JSON object `{"id": ...}` or `{"points": ...}`. -/
inductive ResponseBody where
  | text (msg : String)
  | idJSON (id : String)
  | pointsJSON (points : Int)
  deriving Repr, DecidableEq

/-- The status code and the body of the response. -/
structure Response where
  Code : Nat
  Body : ResponseBody
  deriving Repr, DecidableEq

/-- The handler `processReceipt`.  `newID` is the string of the identifier
that `uuid.New()` generates; the result is the map after the request and the
response. -/
def processReceipt (conv : F64 → Int) (newID : String) (receipts : Store) (r : Request) :
    Store × Response :=
  if r.Method ≠ "POST" then (receipts, ⟨405, ResponseBody.text "Invalid request method"⟩)
  else match r.Body with
    | Except.error err => (receipts, ⟨400, ResponseBody.text err⟩)
    | Except.ok receipt =>
      -- generate a unique ID and calculate points
      let receipt := { receipt with ID := newID }
      let receipt := { receipt with Points := calculatePoints conv receipt }
      (fun k => if k = receipt.ID then some receipt else receipts k,
        ⟨200, ResponseBody.idJSON receipt.ID⟩)

/-- The handler `getPoints`; the result is the map after the request (the
handler never writes to it) and the response. -/
def getPoints (receipts : Store) (r : Request) : Store × Response :=
  if r.Method ≠ "GET" then (receipts, ⟨405, ResponseBody.text "Invalid request method"⟩)
  else
    -- extract the ID from the URL path
    let pathParts := Split r.Path.data
    if pathParts.length < 3 ∨ pathParts.get? 1 ≠ some "receipts".data then
      (receipts, ⟨400, ResponseBody.text "Invalid URL path"⟩)
    else
      let id : String := ⟨pathParts.getD 2 []⟩
      -- look up the receipt by ID
      match receipts id with
      | none => (receipts, ⟨404, ResponseBody.text "Receipt not found"⟩)
      | some receipt => (receipts, ⟨200, ResponseBody.pointsJSON receipt.Points⟩)

/-- The states of the map that the server can be in: the empty map, and the
map after any `processReceipt` or `getPoints` request in such a state. -/
inductive Reachable (conv : F64 → Int) : Store → Prop where
  | empty : Reachable conv emptyStore
  | process (newID : String) (r : Request) (receipts : Store) :
      Reachable conv receipts → Reachable conv (processReceipt conv newID receipts r).1
  | get (r : Request) (receipts : Store) :
      Reachable conv receipts → Reachable conv (getPoints receipts r).1

/-! ## The receipts of `TestProcessReceiptEndpoint` -/

/-- Example 1 of the test: simple receipt. -/
def receipt1 : Receipt :=
  { ID := "", Retailer := "Target", PurchaseDate := "2022-01-01", PurchaseTime := "13:01",
    Items := [⟨"Mountain Dew 12PK", "6.49"⟩, ⟨"Emils Cheese Pizza", "12.25"⟩,
      ⟨"Knorr Creamy Chicken", "1.26"⟩, ⟨"Doritos Nacho Cheese", "3.35"⟩,
      ⟨"Klarbrunn 12-PK 12 FL OZ", "12.00"⟩],
    Total := "35.35", Points := 0 }

/-- Example 2 of the test: receipt with round dollar total. -/
def receipt2 : Receipt :=
  { ID := "", Retailer := "M&M Corner Market", PurchaseDate := "2022-03-20",
    PurchaseTime := "14:33",
    Items := [⟨"Gatorade", "2.25"⟩, ⟨"Gatorade", "2.25"⟩, ⟨"Gatorade", "2.25"⟩,
      ⟨"Gatorade", "2.25"⟩],
    Total := "9.00", Points := 0 }

/-- Example 3 of the test: receipt with complex item descriptions. -/
def receipt3 : Receipt :=
  { ID := "", Retailer := "Walmart", PurchaseDate := "2023-05-15", PurchaseTime := "15:45",
    Items := [⟨"Organic Honey", "10.00"⟩, ⟨"Granola Bars - Mixed", "3.33"⟩,
      ⟨"Sparkling Water", "1.25"⟩],
    Total := "14.58", Points := 0 }

/-- A receipt whose only item has a negative price. -/
def negativePriceReceipt : Receipt :=
  { ID := "", Retailer := "", PurchaseDate := "", PurchaseTime := "",
    Items := [⟨"abc", "-1000.00"⟩], Total := "", Points := 0 }

/-- A receipt with two items of twenty-digit positive prices. -/
def overflowReceipt : Receipt :=
  { ID := "", Retailer := "", PurchaseDate := "", PurchaseTime := "",
    Items := [⟨"abc", "40000000000000000000"⟩, ⟨"abc", "40000000000000000000"⟩],
    Total := "", Points := 0 }

/-- A receipt with the total "2.01" and nothing else. -/
def twoDollarsOneCent : Receipt :=
  { ID := "", Retailer := "", PurchaseDate := "", PurchaseTime := "",
    Items := [], Total := "2.01", Points := 0 }

/-- A receipt with the round total "360287970189641.00" and nothing else. -/
def largeRoundTotal : Receipt :=
  { ID := "", Retailer := "", PurchaseDate := "", PurchaseTime := "",
    Items := [], Total := "360287970189641.00", Points := 0 }

/-! ## Rule contributions, stated independently of the running total -/

/-- Number of ASCII letters and digits among the code points of the retailer name. -/
def alnumCount (retailer : String) : Nat := (retailer.data.filter Char.isAlphanum).length

/-- The total "in integer cents" as the program computes it: `int(price*100)`. -/
def cents (conv : F64 → Int) (total : String) : Int :=
  F64.toInt conv (F64.mul (parsePrice total).1 f100)

/-- Whether the trimmed description of an item has a length that is a multiple of 3. -/
def eligible (item : Item) : Bool := len (TrimSpace item.ShortDescription) % 3 = 0

/-- The seven rule contributions of a receipt, each computed on its own, added
up as unbounded integers. -/
def ruleSum (conv : F64 → Int) (receipt : Receipt) : Int :=
  (alnumCount receipt.Retailer : Int)
  + (if ".00".data <:+ receipt.Total.data then 50 else 0)
  + (if (25 : Int) ∣ cents conv receipt.Total then 25 else 0)
  + 5 * ((receipt.Items.length / 2 : Nat) : Int)
  + ((receipt.Items.filter eligible).map (itemPoints conv)).sum
  + (if isOddDay receipt.PurchaseDate then 6 else 0)
  + (if isInAfternoonRange receipt.PurchaseTime then 10 else 0)

/-- Rule 2 of `calculatePoints`: the amount added for a round dollar total. -/
def roundDollarPoints (total : String) : Int := if isRoundDollar total then 50 else 0

/-- Rule 3 of `calculatePoints`: the amount added for a total that is a multiple of 0.25. -/
def quarterPoints (conv : F64 → Int) (total : String) : Int :=
  if isMultipleOfQuarter conv total then 25 else 0

/-- Rule 6 of `calculatePoints`: the amount added for an odd purchase day. -/
def oddDayPoints (date : String) : Int := if isOddDay date then 6 else 0

/-- Rule 7 of `calculatePoints`: the amount added for the purchase time. -/
def afternoonPoints (timeStr : String) : Int := if isInAfternoonRange timeStr then 10 else 0

/-- An item whose trimmed description has two characters and three bytes. -/
def twoCharItem : Item := ⟨"\u00e9a", "5.00"⟩

/-- An item whose trimmed description has three characters and four bytes. -/
def threeCharItem : Item := ⟨"\u00e9ab", "5.00"⟩

/-! ## Dates and times as the specification words them -/

/-- The decimal digit character of a number below ten. -/
def digitChar (k : Nat) : Char := Char.ofNat (48 + k)

/-- The text `YYYY-MM-DD` of year `y`, month `m` and day `d`. -/
def isoDate (y m d : Nat) : String :=
  ⟨[digitChar (y / 1000), digitChar (y / 100 % 10), digitChar (y / 10 % 10), digitChar (y % 10),
    '-', digitChar (m / 10), digitChar (m % 10), '-', digitChar (d / 10), digitChar (d % 10)]⟩

/-- Number of days of month `m` of year `y` in the Gregorian calendar. -/
def monthLength (y m : Nat) : Nat :=
  if m = 2 then (if (y % 4 = 0 ∧ y % 100 ≠ 0) ∨ y % 400 = 0 then 29 else 28)
  else if m = 4 ∨ m = 6 ∨ m = 9 ∨ m = 11 then 30
  else 31

/-- A calendar date that can be written in `YYYY-MM-DD` form. -/
def validDate (y m d : Nat) : Prop :=
  y ≤ 9999 ∧ 1 ≤ m ∧ m ≤ 12 ∧ 1 ≤ d ∧ d ≤ monthLength y m

/-- The text `HH:MM` of hour `h` and minute `m`. -/
def clockTime (h m : Nat) : String :=
  ⟨[digitChar (h / 10), digitChar (h % 10), ':', digitChar (m / 10), digitChar (m % 10)]⟩

/-- The rational number denoted by the finite value `fin neg m e`. -/
def finValue (neg : Bool) (m : Nat) (e : Int) : ℚ :=
  (if neg then -1 else 1) * (m : ℚ) * (2 : ℚ) ^ e

/-! ## Receipts and relations used in the statements on the whole program -/

/-- Item `b` is item `a` with white space (`unicode.IsSpace`) added in front
of and behind its description. -/
def paddedItem (a b : Item) : Prop :=
  b.Price = a.Price ∧
  ∃ pre post : List Char, (∀ c ∈ pre, unicodeIsSpace c = true) ∧
    (∀ c ∈ post, unicodeIsSpace c = true) ∧
    b.ShortDescription.data = pre ++ a.ShortDescription.data ++ post

/-- The property of the map that `processReceipt` maintains: every entry is
stored under its own identifier and carries its own score. -/
def StoreInvariant (conv : F64 → Int) (receipts : Store) : Prop :=
  ∀ k r, receipts k = some r → r.ID = k ∧ r.Points = calculatePoints conv r

/-- The form `xxxxxxxx-xxxx-xxxx-xxxx-xxxxxxxxxxxx` of the strings that
`uuid.New().String()` returns: 36 characters, hyphens at the positions 8, 13,
18 and 23, lower-case hexadecimal digits elsewhere. -/
def isUUIDString (s : String) : Bool :=
  s.data.length = 36 ∧
  ∀ i : Fin 36, ∀ c, s.data.get? i.val = some c →
    if i.val = 8 ∨ i.val = 13 ∨ i.val = 18 ∨ i.val = 23 then c = '-'
    else c ∈ "0123456789abcdef".data

/-- An identifier of the form that `uuid.New().String()` returns. -/
def sampleID : String := "123e4567-e89b-42d3-a456-426614174000"

/-- A `POST` request whose body decodes to the given receipt. -/
def postReceipt (receipt : Receipt) : Request :=
  ⟨"POST", "/receipts/process", Except.ok receipt⟩

/-- The `GET` request for the points of an identifier. -/
def getPointsOf (id : String) : Request :=
  ⟨"GET", "/receipts/" ++ id ++ "/points", Except.error "EOF"⟩

/-! ## Amounts and sums in exact decimal arithmetic -/

/-- Whether a string is an amount written as one to thirteen decimal digits,
a '.', and two decimal digits. -/
def isPlainAmount (s : String) : Bool :=
  match s.data.reverse with
  | b :: a :: p :: ds =>
    p == '.' && isDecDigit a && isDecDigit b && ds.all isDecDigit &&
      decide (1 ≤ ds.length ∧ ds.length ≤ 13)
  | _ => false

/-- The number written by the decimal digits of a string, other characters
left out: for an amount written with two fraction digits, the amount in cents. -/
def decimalCents (s : String) : Nat :=
  (s.data.filter isDecDigit).foldl (fun n c => n * 10 + (c.toNat - 48)) 0

/-- The exact value of `ceiling(price * 0.2)` for a price written with two
fraction digits: the ceiling of its amount in cents divided by 500. -/
def exactBonus (price : String) : Nat := (decimalCents price + 499) / 500

/-- Whether every character of a string is an ASCII character. -/
def isASCII (s : String) : Bool := s.data.all (fun c => decide (c.toNat < 128))

/-- Whether the trimmed description of an item has a number of characters
that is a multiple of 3. -/
def charEligible (item : Item) : Bool := (TrimSpace item.ShortDescription).length % 3 = 0

/-- The sum of the seven rule contributions as the specification words them,
in unbounded integers and exact decimal arithmetic: the count of ASCII letters
and digits of the retailer, 50 if the total ends in ".00", 25 if the total in
cents is divisible by 25, 5 for every two items, `ceiling(price * 0.2)` for
every item whose trimmed description has a multiple of 3 characters, 6 if the
purchase day is odd, 10 if the purchase hour is 14. -/
def exactRuleSum (receipt : Receipt) : Int :=
  (alnumCount receipt.Retailer : Int)
  + (if ".00".data <:+ receipt.Total.data then 50 else 0)
  + (if decimalCents receipt.Total % 25 = 0 then 25 else 0)
  + 5 * ((receipt.Items.length / 2 : Nat) : Int)
  + ((receipt.Items.filter charEligible).map (fun item => (exactBonus item.Price : Int))).sum
  + (if isOddDay receipt.PurchaseDate then 6 else 0)
  + (if isInAfternoonRange receipt.PurchaseTime then 10 else 0)

/-- A receipt with the total "0.00" and two items at forty quintillion dollars. -/
def largePricesReceipt : Receipt :=
  { ID := "", Retailer := "", PurchaseDate := "", PurchaseTime := "",
    Items := [⟨"abc", "40000000000000000000.00"⟩, ⟨"abc", "40000000000000000000.00"⟩],
    Total := "0.00", Points := 0 }

theorem wrapInt_add_left (a b : Int) : wrapInt (wrapInt a + b) = wrapInt (a + b) := by
  unfold wrapInt; omega

theorem wrapInt_add_right (a b : Int) : wrapInt (a + wrapInt b) = wrapInt (a + b) := by
  unfold wrapInt; omega

theorem wrapInt_idem (a : Int) : wrapInt (wrapInt a) = wrapInt a := by
  unfold wrapInt; omega

theorem wrapInt_of_inRange (a : Int) (h1 : -9223372036854775808 ≤ a)
    (h2 : a ≤ 9223372036854775807) : wrapInt a = a := by
  unfold wrapInt; omega

theorem wrapInt_congr (d t x y : Int) (h : wrapInt d = wrapInt t) (hxy : x - d = y - t) :
    wrapInt x = wrapInt y := by
  have hx : x = (x - d) + d := by ring
  have hy : y = (x - d) + t := by rw [hxy]; ring
  rw [hx, ← wrapInt_add_right, h, wrapInt_add_right, ← hy]

theorem remInt_eq_zero_iff (a : Int) : (remInt a 25 == 0) = decide ((25 : Int) ∣ a) := by
  unfold remInt
  rw [Bool.eq_iff_iff]
  simp only [beq_iff_eq, decide_eq_true_eq]
  constructor
  · intro h; exact Int.dvd_of_tmod_eq_zero h
  · intro h; exact Int.tmod_eq_zero_of_dvd h

/-! ## Lemmas on the rules -/

theorem isAlphanumeric_eq (c : Char) : isAlphanumeric c = c.isAlphanum := by
  unfold isAlphanumeric Char.isAlphanum Char.isAlpha Char.isUpper Char.isLower Char.isDigit
  have h1 : ∀ a b : Char, decide (a ≥ b) = decide (b.val ≤ a.val) := fun a b => rfl
  have h2 : ∀ a b : Char, decide (a ≤ b) = decide (a.val ≤ b.val) := fun a b => rfl
  simp only [h1, h2]
  rw [Bool.eq_iff_iff]
  simp only [Bool.or_eq_true, Bool.and_eq_true, decide_eq_true_eq]
  have e1 : ('a' : Char).val = 97 := rfl
  have e2 : ('z' : Char).val = 122 := rfl
  have e3 : ('A' : Char).val = 65 := rfl
  have e4 : ('Z' : Char).val = 90 := rfl
  have e5 : ('0' : Char).val = 48 := rfl
  have e6 : ('9' : Char).val = 57 := rfl
  rw [e1, e2, e3, e4, e5, e6]
  tauto

theorem retailerLoop_eq (l : List Char) (n : Int) :
    l.foldl (fun n char => if isAlphanumeric char then n + 1 else n) n
      = n + ((l.filter Char.isAlphanum).length : Int) := by
  induction l generalizing n with
  | nil => simp
  | cons c cs ih =>
    rw [List.foldl_cons, ih, List.filter_cons, isAlphanumeric_eq]
    cases h : c.isAlphanum
    · simp
    · simp; ring

theorem retailerPoints_eq (retailer : String) :
    retailerPoints retailer = (alnumCount retailer : Int) := by
  unfold retailerPoints alnumCount
  rw [retailerLoop_eq]; simp

theorem HasSuffix_iff (s suffix : String) :
    HasSuffix s suffix = true ↔ suffix.data <:+ s.data := by
  unfold HasSuffix
  simp only [decide_eq_true_eq]
  constructor
  · rintro ⟨_, h2⟩
    rw [← h2]; exact List.drop_suffix _ _
  · intro h
    obtain ⟨t, ht⟩ := h
    rw [← ht]
    simp

theorem itemLoop_eq (conv : F64 → Int) (items : List Item) (acc : Int) :
    wrapInt (items.foldl (fun acc item =>
      let desc := TrimSpace item.ShortDescription
      let descLength := len desc
      if descLength % 3 = 0 then addInt acc (itemPoints conv item) else acc) acc)
    = wrapInt (acc + ((items.filter eligible).map (itemPoints conv)).sum) := by
  induction items generalizing acc with
  | nil => simp
  | cons it its ih =>
    rw [List.foldl_cons, ih, List.filter_cons]
    by_cases h : len (TrimSpace it.ShortDescription) % 3 = 0
    · have he : eligible it = true := by simp [eligible, h]
      simp only [h, he, if_true, List.map_cons, List.sum_cons, addInt]
      rw [wrapInt_add_left, add_assoc]
    · have he : eligible it = false := by simp [eligible, h]
      simp [h, he]

theorem itemDescriptionPoints_eq (conv : F64 → Int) (items : List Item) :
    wrapInt (itemDescriptionPoints conv items)
      = wrapInt (((items.filter eligible).map (itemPoints conv)).sum) := by
  unfold itemDescriptionPoints
  rw [itemLoop_eq]; simp

theorem calculatePoints_eq_wrap (conv : F64 → Int) (receipt : Receipt) :
    calculatePoints conv receipt = wrapInt (ruleSum conv receipt) := by
  unfold calculatePoints ruleSum
  have hs : isRoundDollar receipt.Total = decide (".00".data <:+ receipt.Total.data) := by
    rw [Bool.eq_iff_iff]; simp [isRoundDollar, HasSuffix_iff]
  have hq : isMultipleOfQuarter conv receipt.Total
      = decide ((25 : Int) ∣ cents conv receipt.Total) := by
    unfold isMultipleOfQuarter cents; exact remInt_eq_zero_iff _
  simp only [hs, hq, retailerPoints_eq, addInt, itemPairPoints, decide_eq_true_eq, zero_add]
  have hd := itemDescriptionPoints_eq conv receipt.Items
  split_ifs <;>
    simp only [wrapInt_add_left, add_zero] <;>
    refine wrapInt_congr _ _ _ _ hd ?_ <;> ring

theorem toInt_inRange (conv : F64 → Int) (x : F64) :
    -9223372036854775808 ≤ F64.toInt conv x ∧ F64.toInt conv x ≤ 9223372036854775807 := by
  have hw : ∀ a : Int, -9223372036854775808 ≤ wrapInt a ∧ wrapInt a ≤ 9223372036854775807 := by
    intro a; unfold wrapInt; omega
  cases x with
  | fin neg m e =>
    unfold F64.toInt
    simp only
    split_ifs with h
    · exact h
    · exact hw _
  | inf neg => exact hw _
  | nan => exact hw _

theorem sum_nonneg_of_forall (l : List Int) (h : ∀ x ∈ l, 0 ≤ x) : 0 ≤ l.sum := by
  induction l with
  | nil => simp
  | cons a as ih =>
    rw [List.sum_cons]
    have h1 := h a (List.mem_cons_self a as)
    have h2 := ih (fun x hx => h x (List.mem_cons_of_mem a hx))
    omega

theorem ruleSum_nonneg (conv : F64 → Int) (receipt : Receipt)
    (hitems : ∀ item ∈ receipt.Items, eligible item = true → 0 ≤ itemPoints conv item) :
    0 ≤ ruleSum conv receipt := by
  unfold ruleSum
  have h5 : 0 ≤ ((receipt.Items.filter eligible).map (itemPoints conv)).sum := by
    apply sum_nonneg_of_forall
    intro x hx
    obtain ⟨it, hit, rfl⟩ := List.mem_map.mp hx
    obtain ⟨hmem, hel⟩ := List.mem_filter.mp hit
    exact hitems it hmem hel
  have h1 : (0 : Int) ≤ (alnumCount receipt.Retailer : Int) := Int.natCast_nonneg _
  have h4 : (0 : Int) ≤ ((receipt.Items.length / 2 : Nat) : Int) := Int.natCast_nonneg _
  split_ifs <;> omega

/-- The score as the wrapped sum of what each of the seven rules adds. -/
theorem calculatePoints_eq_contributions (conv : F64 → Int) (receipt : Receipt) :
    calculatePoints conv receipt = wrapInt (retailerPoints receipt.Retailer
      + roundDollarPoints receipt.Total + quarterPoints conv receipt.Total
      + itemPairPoints receipt.Items + itemDescriptionPoints conv receipt.Items
      + oddDayPoints receipt.PurchaseDate + afternoonPoints receipt.PurchaseTime) := by
  unfold calculatePoints roundDollarPoints quarterPoints oddDayPoints afternoonPoints
  simp only [addInt, zero_add]
  split_ifs <;> simp only [wrapInt_add_left, add_zero]

/-! ## Lemmas on `time.Parse` -/

theorem isDecDigit_iff (c : Char) : isDecDigit c = true ↔ 48 ≤ c.toNat ∧ c.toNat ≤ 57 := by
  unfold isDecDigit; simp

theorem digitChar_toNat (k : Nat) (h : k < 10) : (digitChar k).toNat = 48 + k := by
  interval_cases k <;> rfl

theorem digitChar_of_digit (c : Char) (h : isDecDigit c = true) : digitChar (c.toNat - 48) = c := by
  rw [isDecDigit_iff] at h
  unfold digitChar
  rw [show 48 + (c.toNat - 48) = c.toNat by omega]
  exact Char.ofNat_toNat c

theorem isDecDigit_digitChar (k : Nat) (h : k < 10) : isDecDigit (digitChar k) = true := by
  rw [isDecDigit_iff, digitChar_toNat k h]; omega

theorem getnum_nil (fixed : Bool) : getnum [] fixed = none := rfl

theorem getnum_single (a : Char) :
    getnum [a] true = none := by
  have h : getnum [a] true = if ¬ isDecDigit a = true then none else none := rfl
  rw [h, ite_self]

theorem getnum_cons_cons (a b : Char) (t : List Char) (fixed : Bool) :
    getnum (a :: b :: t) fixed =
      if ¬ isDecDigit a = true then none
      else if ¬ isDecDigit b = true then
        (if fixed = true then none else some (a.toNat - 48, b :: t))
      else some ((a.toNat - 48) * 10 + (b.toNat - 48), t) := rfl

theorem getnum_fixed_cons_cons (a b : Char) (t : List Char) :
    getnum (a :: b :: t) true =
      if isDecDigit a = true ∧ isDecDigit b = true then
        some ((a.toNat - 48) * 10 + (b.toNat - 48), t)
      else none := by
  rw [getnum_cons_cons]
  cases isDecDigit a <;> cases isDecDigit b <;> simp

theorem getnum_fixed_iff (s rest : List Char) (n : Nat) :
    getnum s true = some (n, rest) ↔
      ∃ a b, s = a :: b :: rest ∧ isDecDigit a = true ∧ isDecDigit b = true ∧
        n = (a.toNat - 48) * 10 + (b.toNat - 48) := by
  rcases s with _ | ⟨a, _ | ⟨b, t⟩⟩
  · rw [getnum_nil]
    constructor
    · intro h; cases h
    · rintro ⟨a, b, h, _⟩; cases h
  · rw [getnum_single]
    constructor
    · intro h; cases h
    · rintro ⟨a, b, h, _⟩; cases h
  · rw [getnum_fixed_cons_cons]
    constructor
    · intro h
      by_cases hab : isDecDigit a = true ∧ isDecDigit b = true
      · rw [if_pos hab, Option.some.injEq, Prod.mk.injEq] at h
        exact ⟨a, b, by rw [h.2], hab.1, hab.2, h.1.symm⟩
      · rw [if_neg hab] at h; cases h
    · rintro ⟨a1, b1, h, ha, hb, hn⟩
      rw [List.cons.injEq, List.cons.injEq] at h
      obtain ⟨rfl, rfl, rfl⟩ := h
      rw [if_pos ⟨ha, hb⟩, hn]

theorem skip_iff (v rest : List Char) (c : Char) : skip v c = some rest ↔ v = c :: rest := by
  unfold skip
  rcases v with _ | ⟨a, t⟩
  · constructor
    · intro h; cases h
    · intro h; cases h
  · simp only
    constructor
    · intro h
      split_ifs at h with hc
      rw [Option.some.injEq] at h
      rw [hc, h]
    · intro h
      rw [List.cons.injEq] at h
      rw [if_pos h.1, h.2]

theorem digitsValue_four (a b c e : Char) :
    digitsValue [a, b, c, e] =
      if isDecDigit a = true ∧ isDecDigit b = true ∧ isDecDigit c = true ∧ isDecDigit e = true then
        some ((((a.toNat - 48) * 10 + (b.toNat - 48)) * 10 + (c.toNat - 48)) * 10 + (e.toNat - 48))
      else none := by
  unfold digitsValue
  simp only [List.foldl]
  cases isDecDigit a <;> cases isDecDigit b <;> cases isDecDigit c <;> cases isDecDigit e <;> simp

theorem parseYear_iff (v rest : List Char) (y : Nat) :
    parseYear v = some (y, rest) ↔
      ∃ a b c e, v = a :: b :: c :: e :: rest ∧ isDecDigit a = true ∧ isDecDigit b = true ∧
        isDecDigit c = true ∧ isDecDigit e = true ∧
        y = (((a.toNat - 48) * 10 + (b.toNat - 48)) * 10 + (c.toNat - 48)) * 10 + (e.toNat - 48) := by
  rcases v with _ | ⟨a, _ | ⟨b, _ | ⟨c, _ | ⟨e, t⟩⟩⟩⟩
  · constructor
    · intro h; simp [parseYear] at h
    · rintro ⟨a, b, c, e, h, _⟩; cases h
  · constructor
    · intro h; simp [parseYear] at h
    · rintro ⟨a, b, c, e, h, _⟩; cases h
  · constructor
    · intro h; simp [parseYear] at h
    · rintro ⟨a, b, c, e, h, _⟩; cases h
  · constructor
    · intro h; simp [parseYear] at h
    · rintro ⟨a, b, c, e, h, _⟩; cases h
  · have hy : parseYear (a :: b :: c :: e :: t) =
        if isDecDigit a = true ∧ isDecDigit b = true ∧ isDecDigit c = true ∧ isDecDigit e = true then
          some ((((a.toNat - 48) * 10 + (b.toNat - 48)) * 10 + (c.toNat - 48)) * 10
            + (e.toNat - 48), t)
        else none := by
      unfold parseYear
      have hl : ¬ ((a :: b :: c :: e :: t).length < 4) := by simp
      have hd : isDigit (a :: b :: c :: e :: t) 0 = isDecDigit a := rfl
      have ht : (a :: b :: c :: e :: t).take 4 = [a, b, c, e] := rfl
      have hr : (a :: b :: c :: e :: t).drop 4 = t := rfl
      rw [hd, ht, hr, digitsValue_four]
      cases isDecDigit a <;> cases isDecDigit b <;> cases isDecDigit c <;>
        cases isDecDigit e <;> simp
    rw [hy]
    constructor
    · intro h
      by_cases hab : isDecDigit a = true ∧ isDecDigit b = true ∧ isDecDigit c = true ∧
          isDecDigit e = true
      · rw [if_pos hab, Option.some.injEq, Prod.mk.injEq] at h
        exact ⟨a, b, c, e, by rw [h.2], hab.1, hab.2.1, hab.2.2.1, hab.2.2.2, h.1.symm⟩
      · rw [if_neg hab] at h; cases h
    · rintro ⟨a1, b1, c1, e1, h, ha, hb, hc, he, hn⟩
      simp only [List.cons.injEq] at h
      obtain ⟨rfl, rfl, rfl, rfl, rfl⟩ := h
      rw [if_pos ⟨ha, hb, hc, he⟩, hn]

theorem parseDate_iff (v : List Char) (y m d : Nat) :
    parseDate v = some (y, m, d) ↔
      ∃ a b c e f g h i, v = [a, b, c, e, '-', f, g, '-', h, i] ∧
        isDecDigit a = true ∧ isDecDigit b = true ∧ isDecDigit c = true ∧ isDecDigit e = true ∧
        isDecDigit f = true ∧ isDecDigit g = true ∧ isDecDigit h = true ∧ isDecDigit i = true ∧
        y = (((a.toNat - 48) * 10 + (b.toNat - 48)) * 10 + (c.toNat - 48)) * 10 + (e.toNat - 48) ∧
        m = (f.toNat - 48) * 10 + (g.toNat - 48) ∧ d = (h.toNat - 48) * 10 + (i.toNat - 48) ∧
        1 ≤ m ∧ m ≤ 12 ∧ 1 ≤ d ∧ d ≤ daysIn m y := by
  unfold parseDate
  simp only [Option.bind_eq_bind, Option.bind_eq_some, Prod.exists]
  constructor
  · rintro ⟨y0, v0, hy, v1, hs1, m0, v2, hm, h⟩
    split_ifs at h with hmr
    simp only [Option.bind_eq_some, Prod.exists] at h
    obtain ⟨v3, hs2, d0, v4, hd, h⟩ := h
    split_ifs at h with hv4 hdr
    rw [Option.some.injEq, Prod.mk.injEq, Prod.mk.injEq] at h
    obtain ⟨rfl, rfl, rfl⟩ := h
    rw [not_not] at hv4
    obtain ⟨a, b, c, e, rfl, ha, hb, hc, he, rfl⟩ := (parseYear_iff _ _ _).mp hy
    rw [skip_iff] at hs1 hs2
    obtain ⟨f, g, rfl, hf, hg, rfl⟩ := (getnum_fixed_iff _ _ _).mp hm
    obtain ⟨h, i, rfl, hh, hi, rfl⟩ := (getnum_fixed_iff _ _ _).mp hd
    subst hs1 hs2 hv4
    exact ⟨a, b, c, e, f, g, h, i, rfl, ha, hb, hc, he, hf, hg, hh, hi, rfl, rfl, rfl,
      by omega, by omega, by omega, by omega⟩
  · rintro ⟨a, b, c, e, f, g, h, i, rfl, ha, hb, hc, he, hf, hg, hh, hi, rfl, rfl, rfl,
      h1, h2, h3, h4⟩
    refine ⟨_, _, (parseYear_iff _ _ _).mpr ⟨a, b, c, e, rfl, ha, hb, hc, he, rfl⟩, _,
      (skip_iff _ _ _).mpr rfl, _, _, (getnum_fixed_iff _ _ _).mpr ⟨f, g, rfl, hf, hg, rfl⟩, ?_⟩
    rw [if_neg (by omega)]
    simp only [Option.bind_eq_some, Prod.exists]
    refine ⟨_, (skip_iff _ _ _).mpr rfl, _, _,
      (getnum_fixed_iff _ _ _).mpr ⟨h, i, rfl, hh, hi, rfl⟩, ?_⟩
    rw [if_neg (by simp), if_neg (by omega)]

theorem digit_bounds (c : Char) (h : isDecDigit c = true) : c.toNat - 48 ≤ 9 := by
  rw [isDecDigit_iff] at h; omega

theorem digitChar_value (k : Nat) (h : k < 10) : (digitChar k).toNat - 48 = k := by
  rw [digitChar_toNat k h]; omega

theorem daysIn_eq_monthLength (y m : Nat) (h1 : 1 ≤ m) (h2 : m ≤ 12) :
    daysIn m y = monthLength y m := by
  unfold daysIn monthLength isLeap
  interval_cases m <;> simp
  by_cases h4 : y % 4 = 0 <;> by_cases h100 : y % 100 = 0 <;> by_cases h400 : y % 400 = 0 <;>
    simp [h4, h100, h400] <;> omega

theorem isOddDay_iff (date : String) :
    isOddDay date = true ↔
      ∃ y m d, date = isoDate y m d ∧ validDate y m d ∧ d % 2 = 1 := by
  unfold isOddDay
  constructor
  · intro h
    split at h
    · cases h
    · rename_i y m d hp
      obtain ⟨a, b, c, e, f, g, hh, i, hv, ha, hb, hc, he, hf, hg, hhd, hi, hy, hm, hd,
        h1, h2, h3, h4⟩ := (parseDate_iff _ _ _ _).mp hp
      have ba := digit_bounds a ha
      have bb := digit_bounds b hb
      have bc := digit_bounds c hc
      have be := digit_bounds e he
      have bf := digit_bounds f hf
      have bg := digit_bounds g hg
      have bh := digit_bounds hh hhd
      have bi := digit_bounds i hi
      refine ⟨y, m, d, ?_, ⟨by omega, h1, h2, h3, ?_⟩, ?_⟩
      · apply String.ext
        rw [hv]
        unfold isoDate
        simp only
        rw [show y / 1000 = a.toNat - 48 by omega, show y / 100 % 10 = b.toNat - 48 by omega,
          show y / 10 % 10 = c.toNat - 48 by omega, show y % 10 = e.toNat - 48 by omega,
          show m / 10 = f.toNat - 48 by omega, show m % 10 = g.toNat - 48 by omega,
          show d / 10 = hh.toNat - 48 by omega, show d % 10 = i.toNat - 48 by omega,
          digitChar_of_digit a ha, digitChar_of_digit b hb, digitChar_of_digit c hc,
          digitChar_of_digit e he, digitChar_of_digit f hf, digitChar_of_digit g hg,
          digitChar_of_digit hh hhd, digitChar_of_digit i hi]
      · rw [← daysIn_eq_monthLength y m h1 h2]; exact h4
      · simpa using h
  · rintro ⟨y, m, d, rfl, ⟨hy, h1, h2, h3, h4⟩, hodd⟩
    have hd31 : d ≤ 31 := by
      unfold monthLength at h4
      split_ifs at h4 <;> omega
    have hp : parseDate (isoDate y m d).data = some (y, m, d) := by
      rw [parseDate_iff]
      refine ⟨_, _, _, _, _, _, _, _, rfl,
        isDecDigit_digitChar _ (by omega), isDecDigit_digitChar _ (by omega),
        isDecDigit_digitChar _ (by omega), isDecDigit_digitChar _ (by omega),
        isDecDigit_digitChar _ (by omega), isDecDigit_digitChar _ (by omega),
        isDecDigit_digitChar _ (by omega), isDecDigit_digitChar _ (by omega), ?_, ?_, ?_,
        h1, h2, h3, ?_⟩
      · rw [digitChar_value _ (by omega), digitChar_value _ (by omega),
          digitChar_value _ (by omega), digitChar_value _ (by omega)]
        omega
      · rw [digitChar_value _ (by omega), digitChar_value _ (by omega)]
        omega
      · rw [digitChar_value _ (by omega), digitChar_value _ (by omega)]
        omega
      · rw [daysIn_eq_monthLength y m h1 h2]; exact h4
    rw [hp]
    simp [hodd]

theorem getnum_free_cases (s rest : List Char) (n : Nat) (h : getnum s false = some (n, rest)) :
    (∃ a b, s = a :: b :: rest ∧ isDecDigit a = true ∧ isDecDigit b = true ∧
        n = (a.toNat - 48) * 10 + (b.toNat - 48)) ∨ n ≤ 9 := by
  rcases s with _ | ⟨a, _ | ⟨b, t⟩⟩
  · rw [getnum_nil] at h; cases h
  · have hs : getnum [a] false = if ¬ isDecDigit a = true then none else some (a.toNat - 48, []) :=
      rfl
    rw [hs] at h
    by_cases ha : isDecDigit a = true
    · rw [if_neg (not_not.mpr ha), Option.some.injEq, Prod.mk.injEq] at h
      right; rw [← h.1]; exact digit_bounds a ha
    · rw [if_pos ha] at h; cases h
  · rw [getnum_cons_cons] at h
    by_cases ha : isDecDigit a = true
    · rw [if_neg (not_not.mpr ha)] at h
      by_cases hb : isDecDigit b = true
      · rw [if_neg (not_not.mpr hb), Option.some.injEq, Prod.mk.injEq] at h
        left; exact ⟨a, b, by rw [h.2], ha, hb, h.1.symm⟩
      · rw [if_pos hb] at h
        simp only [Bool.false_eq_true, if_false, Option.some.injEq, Prod.mk.injEq] at h
        right; rw [← h.1]; exact digit_bounds a ha
    · rw [if_pos ha] at h; cases h

theorem char_eq_of_toNat (c : Char) (k : Nat) (h : isDecDigit c = true) (hk : c.toNat - 48 = k) :
    c = digitChar k := by
  rw [← hk]; exact (digitChar_of_digit c h).symm

theorem isInAfternoonRange_iff (timeStr : String) :
    isInAfternoonRange timeStr = true ↔ ∃ m, m < 60 ∧ timeStr = clockTime 14 m := by
  unfold isInAfternoonRange
  constructor
  · intro h
    split at h
    · cases h
    · rename_i hour min hp
      have h14 : hour = 14 := by simpa using h
      subst h14
      unfold parseClock at hp
      simp only [Option.bind_eq_bind, Option.bind_eq_some, Prod.exists] at hp
      obtain ⟨h0, v1, hg, hp⟩ := hp
      split_ifs at hp with hr
      simp only [Option.bind_eq_some, Prod.exists] at hp
      obtain ⟨v2, hs, m0, v3, hm, hp⟩ := hp
      split_ifs at hp with hmr hv3
      rw [Option.some.injEq, Prod.mk.injEq] at hp
      obtain ⟨rfl, rfl⟩ := hp
      rw [not_not] at hv3
      subst hv3
      rw [skip_iff] at hs
      obtain ⟨c, d, rfl, hc, hd, rfl⟩ := (getnum_fixed_iff _ _ _).mp hm
      rcases getnum_free_cases _ _ _ hg with ⟨a, b, hv, ha, hb, hn⟩ | hle
      · have ba := digit_bounds a ha
        have bb := digit_bounds b hb
        have bc := digit_bounds c hc
        have bd := digit_bounds d hd
        refine ⟨(c.toNat - 48) * 10 + (d.toNat - 48), by omega, ?_⟩
        apply String.ext
        rw [hv, hs]
        unfold clockTime
        simp only
        rw [show ((c.toNat - 48) * 10 + (d.toNat - 48)) / 10 = c.toNat - 48 by omega,
          show ((c.toNat - 48) * 10 + (d.toNat - 48)) % 10 = d.toNat - 48 by omega,
          digitChar_of_digit c hc, digitChar_of_digit d hd,
          char_eq_of_toNat a 1 ha (by omega), char_eq_of_toNat b 4 hb (by omega)]
      · omega
  · rintro ⟨m, hm, rfl⟩
    have hp : parseClock (clockTime 14 m).data = some (14, m) := by
      unfold parseClock clockTime
      simp only [Option.bind_eq_bind, Option.bind_eq_some, Prod.exists]
      refine ⟨14, [':', digitChar (m / 10), digitChar (m % 10)], ?_, ?_⟩
      · rfl
      · rw [if_neg (by omega)]
        simp only [Option.bind_eq_some, Prod.exists]
        refine ⟨_, (skip_iff _ _ _).mpr rfl, m, [], ?_, ?_⟩
        · rw [getnum_fixed_iff]
          refine ⟨_, _, rfl, isDecDigit_digitChar _ (by omega), isDecDigit_digitChar _ (by omega),
            ?_⟩
          rw [digitChar_value _ (by omega), digitChar_value _ (by omega)]
          omega
        · rw [if_neg (by omega), if_neg (by simp)]
    rw [hp]
    rfl

/-! ## Lemmas on `math.Ceil` and `int(x)` -/

theorem finValue_nonneg_exp (neg : Bool) (m : Nat) (e : Int) (h : 0 ≤ e) :
    finValue neg m e = ((if neg then -((m * 2 ^ e.toNat : Nat) : Int) else (m * 2 ^ e.toNat : Nat) : Int) : ℚ) := by
  unfold finValue
  obtain ⟨k, rfl⟩ := Int.eq_ofNat_of_zero_le h
  cases neg <;> simp [zpow_natCast]

theorem finValue_neg_exp (neg : Bool) (m : Nat) (e : Int) (h : e < 0) :
    finValue neg m e = (if neg then -1 else 1) * ((m : ℚ) / ((2 ^ (-e).toNat : Nat) : ℚ)) := by
  unfold finValue
  obtain ⟨k, hk⟩ := Int.eq_ofNat_of_zero_le (show 0 ≤ -e by omega)
  have he : e = -(k : Int) := by omega
  subst he
  simp only [neg_neg, Int.toNat_ofNat, zpow_neg, zpow_natCast, Nat.cast_pow, Nat.cast_ofNat]
  ring

theorem ceil_nat_div (m d : Nat) (hd : 0 < d) :
    ⌈(m : ℚ) / (d : ℚ)⌉ = ((if m % d = 0 then m / d else m / d + 1 : Nat) : Int) := by
  have key : ∀ q r : Nat, d * q + r = m → r < d →
      ⌈(m : ℚ) / (d : ℚ)⌉ = ((if r = 0 then q else q + 1 : Nat) : Int) := by
    intro q r hm hr
    have hdq : (0 : ℚ) < d := by exact_mod_cast hd
    have hmq : (m : ℚ) = (d : ℚ) * (q : ℚ) + (r : ℚ) := by exact_mod_cast hm.symm
    have hrq : (r : ℚ) < d := by exact_mod_cast hr
    have hr0 : (0 : ℚ) ≤ r := Nat.cast_nonneg r
    rw [Int.ceil_eq_iff]
    split_ifs with h0
    · subst h0
      simp only [Nat.cast_zero, add_zero] at hmq
      simp only [Int.cast_natCast]
      constructor
      · rw [lt_div_iff₀ hdq]; nlinarith
      · rw [div_le_iff₀ hdq]; nlinarith
    · have h1 : (1 : ℚ) ≤ (r : ℚ) := by
        have : 1 ≤ r := by omega
        exact_mod_cast this
      push_cast
      constructor
      · rw [lt_div_iff₀ hdq]; nlinarith
      · rw [div_le_iff₀ hdq]; nlinarith
  exact key (m / d) (m % d) (Nat.div_add_mod m d) (Nat.mod_lt m hd)

theorem floor_nat_div (m d : Nat) : ⌊(m : ℚ) / (d : ℚ)⌋ = ((m / d : Nat) : Int) := by
  rw [← Int.natCast_floor_eq_floor (by positivity)]
  exact_mod_cast Nat.floor_div_eq_div (α := ℚ) m d
theorem ceil_fin_eq (neg : Bool) (m : Nat) (e : Int) :
    F64.ceil (F64.fin neg m e) =
      if e ≥ 0 then F64.fin neg m e
      else if neg = true then F64.fin true (m / 2 ^ (-e).toNat) 0
      else F64.fin false
        (if m % 2 ^ (-e).toNat = 0 then m / 2 ^ (-e).toNat else m / 2 ^ (-e).toNat + 1) 0 := rfl

theorem truncFin_ceil (neg : Bool) (m : Nat) (e : Int) :
    ∃ n k f, F64.ceil (F64.fin neg m e) = F64.fin n k f ∧
      truncFin n k f = ⌈finValue neg m e⌉ := by
  rw [ceil_fin_eq]
  by_cases he : e ≥ 0
  · rw [if_pos he]
    refine ⟨neg, m, e, rfl, ?_⟩
    rw [finValue_nonneg_exp neg m e he, Int.ceil_intCast]
    unfold truncFin
    simp only [if_pos he]
  · rw [if_neg he]
    have hd : 0 < 2 ^ (-e).toNat := Nat.pos_of_ne_zero (by positivity)
    rw [finValue_neg_exp neg m e (by omega)]
    cases neg
    · refine ⟨false, _, 0, if_neg (by simp), ?_⟩
      simp only [Bool.false_eq_true, if_false, one_mul]
      rw [ceil_nat_div m _ hd]
      unfold truncFin
      simp
    · refine ⟨true, _, 0, if_pos rfl, ?_⟩
      simp only [if_true, neg_mul, one_mul]
      rw [Int.ceil_neg, floor_nat_div]
      unfold truncFin
      simp

theorem toInt_ceil_eq_ceil (conv : F64 → Int) (neg : Bool) (m : Nat) (e : Int)
    (h1 : -9223372036854775808 ≤ ⌈finValue neg m e⌉)
    (h2 : ⌈finValue neg m e⌉ ≤ 9223372036854775807) :
    F64.toInt conv (F64.ceil (F64.fin neg m e)) = ⌈finValue neg m e⌉ := by
  obtain ⟨n, k, f, hc, ht⟩ := truncFin_ceil neg m e
  rw [hc]
  unfold F64.toInt
  simp only
  rw [ht, if_pos ⟨h1, h2⟩]

theorem itemPoints_eq_ceil (conv : F64 → Int) (item : Item) (neg : Bool) (m : Nat) (e : Int)
    (hp : F64.mul (parsePrice item.Price).1 f0_2 = F64.fin neg m e)
    (h1 : -9223372036854775808 ≤ ⌈finValue neg m e⌉)
    (h2 : ⌈finValue neg m e⌉ ≤ 9223372036854775807) :
    itemPoints conv item = ⌈finValue neg m e⌉ := by
  unfold itemPoints
  simp only
  rw [hp]
  exact toInt_ceil_eq_ceil conv neg m e h1 h2

/-! ## Lemmas on `fmt.Sscanf` -/

theorem accept_of_not_mem (c : Char) (rest buf : List Char) (ok : String) (h : c ∉ ok.data) :
    ss.accept ⟨c :: rest, buf⟩ ok = (false, ⟨c :: rest, buf⟩) := by
  unfold ss.accept
  simp only
  rw [if_neg h]

theorem acceptLoop_of_not_mem (c : Char) (rest buf : List Char) (ok : String) (h : c ∉ ok.data) :
    acceptLoop ok (c :: rest) buf = ⟨c :: rest, buf⟩ := by
  unfold acceptLoop
  rw [if_neg h]

theorem log2Fuel_spec (fuel n : Nat) (h1 : 1 ≤ n) (h2 : n ≤ fuel) :
    2 ^ log2Fuel fuel n ≤ n ∧ n < 2 ^ (log2Fuel fuel n + 1) := by
  induction fuel generalizing n with
  | zero => omega
  | succ f ih =>
    unfold log2Fuel
    by_cases h : n ≥ 2
    · rw [if_pos h]
      have := ih (n / 2) (by omega) (by omega)
      rw [pow_succ, pow_succ]
      omega
    · rw [if_neg h]
      simp
      omega

theorem log2_spec (n : Nat) (h : 1 ≤ n) : 2 ^ log2 n ≤ n ∧ n < 2 ^ (log2 n + 1) :=
  log2Fuel_spec n n h le_rfl

theorem two_zpow_eq (e : Int) : (2 : ℚ) ^ e = (2 : ℚ) ^ e.toNat / (2 : ℚ) ^ (-e).toNat := by
  rcases le_or_lt 0 e with h | h
  · obtain ⟨k, rfl⟩ := Int.eq_ofNat_of_zero_le h
    simp
  · obtain ⟨k, hk⟩ := Int.eq_ofNat_of_zero_le (show 0 ≤ -e by omega)
    have he : e = -(k : Int) := by omega
    subst he
    simp [zpow_neg]

theorem scaled_div (n d : Nat) (e : Int) :
    ((n * 2 ^ (-e).toNat : Nat) : ℚ) / ((d * 2 ^ e.toNat : Nat) : ℚ) = (n : ℚ) / d / (2 : ℚ) ^ e := by
  rw [two_zpow_eq e]
  push_cast
  have h1 : (2 : ℚ) ^ e.toNat ≠ 0 := by positivity
  have h2 : (2 : ℚ) ^ (-e).toNat ≠ 0 := by positivity
  by_cases hd : (d : ℚ) = 0
  · simp [hd]
  · field_simp

theorem two_zpow_pos (e : Int) : (0 : ℚ) < (2 : ℚ) ^ e := by positivity

theorem two_zpow_succ (e : Int) : (2 : ℚ) ^ (e + 1) = 2 * (2 : ℚ) ^ e := by
  rw [zpow_add_one₀ two_ne_zero]; ring

theorem two_zpow_le (a b : Int) (h : a ≤ b) : (2 : ℚ) ^ a ≤ (2 : ℚ) ^ b :=
  zpow_le_zpow_right₀ (by norm_num) h

theorem two_zpow_lt_iff (a b : Int) : (2 : ℚ) ^ a < (2 : ℚ) ^ b ↔ a < b :=
  zpow_lt_zpow_iff_right₀ (by norm_num)

/-- The exponent chosen by `ulpExp` brackets the value: `n / d < 2^(e+53)`, and
`2^(e+52) <= n / d` unless the exponent is the least one. -/
theorem ulpExp_spec (n d : Nat) (hn : 0 < n) (hd : 0 < d) :
    -1074 ≤ ulpExp n d ∧ (n : ℚ) / d < (2 : ℚ) ^ (ulpExp n d + 53) ∧
      (-1074 < ulpExp n d → (2 : ℚ) ^ (ulpExp n d + 52) ≤ (n : ℚ) / d) := by
  obtain ⟨ha1, ha2⟩ := log2_spec n hn
  obtain ⟨hb1, hb2⟩ := log2_spec d hd
  have hdq : (0 : ℚ) < d := by exact_mod_cast hd
  have ha1q : (2 : ℚ) ^ (log2 n) ≤ n := by exact_mod_cast ha1
  have ha2q : (n : ℚ) < (2 : ℚ) ^ (log2 n + 1) := by exact_mod_cast ha2
  have hb1q : (2 : ℚ) ^ (log2 d) ≤ d := by exact_mod_cast hb1
  have hb2q : (d : ℚ) < (2 : ℚ) ^ (log2 d + 1) := by exact_mod_cast hb2
  have hlow : (2 : ℚ) ^ ((log2 n : Int) - (log2 d : Int) - 52 + 51) ≤ (n : ℚ) / d := by
    have e1 : (log2 n : Int) - (log2 d : Int) - 52 + 51 = ((log2 n : Nat) : Int) - ((log2 d + 1 : Nat) : Int) := by
      push_cast; ring
    rw [e1, zpow_sub₀ two_ne_zero, zpow_natCast, zpow_natCast]
    rw [div_le_div_iff₀ (by positivity) hdq]
    have hp : (0 : ℚ) < (2 : ℚ) ^ (log2 d + 1) := by positivity
    have hp2 : (0 : ℚ) ≤ (2 : ℚ) ^ (log2 n) := by positivity
    nlinarith
  have hupp : (n : ℚ) / d < (2 : ℚ) ^ ((log2 n : Int) - (log2 d : Int) - 52 + 53) := by
    have e1 : (log2 n : Int) - (log2 d : Int) - 52 + 53 = ((log2 n + 1 : Nat) : Int) - ((log2 d : Nat) : Int) := by
      push_cast; ring
    rw [e1, zpow_sub₀ two_ne_zero, zpow_natCast, zpow_natCast]
    rw [div_lt_div_iff₀ hdq (by positivity)]
    have hp : (0 : ℚ) < (2 : ℚ) ^ (log2 d) := by positivity
    have hp2 : (0 : ℚ) < (2 : ℚ) ^ (log2 n + 1) := by positivity
    nlinarith
  have htest : ∀ e0 : Int, (n * 2 ^ (-e0).toNat < d * 2 ^ e0.toNat * 4503599627370496) ↔
      (n : ℚ) / d < (2 : ℚ) ^ (e0 + 52) := by
    intro e0
    have h52 : (2 : ℚ) ^ (e0 + 52) = (2 : ℚ) ^ e0 * 4503599627370496 := by
      rw [zpow_add₀ two_ne_zero]; norm_num
    rw [h52, two_zpow_eq e0, div_mul_eq_mul_div, div_lt_div_iff₀ hdq (by positivity)]
    constructor
    · intro h
      have : ((n * 2 ^ (-e0).toNat : Nat) : ℚ) < ((d * 2 ^ e0.toNat * 4503599627370496 : Nat) : ℚ) := by
        exact_mod_cast h
      push_cast at this
      linarith
    · intro h
      have : ((n * 2 ^ (-e0).toNat : Nat) : ℚ) < ((d * 2 ^ e0.toNat * 4503599627370496 : Nat) : ℚ) := by
        push_cast
        linarith
      exact_mod_cast this
  unfold ulpExp
  simp only
  generalize hE : ((log2 n : Int) - (log2 d : Int) - 52) = e0 at hlow hupp
  by_cases ht : n * 2 ^ (-e0).toNat < d * 2 ^ e0.toNat * 4503599627370496
  · rw [if_pos ht]
    have hv := (htest e0).mp ht
    have e53 : e0 - 1 + 53 = e0 + 52 := by ring
    have e52 : e0 - 1 + 52 = e0 + 51 := by ring
    rcases le_or_lt (-1074) (e0 - 1) with hm | hm
    · rw [max_eq_left hm, e53, e52]
      exact ⟨hm, hv, fun _ => hlow⟩
    · rw [max_eq_right hm.le]
      refine ⟨le_rfl, ?_, fun h => absurd h (lt_irrefl _)⟩
      exact lt_of_lt_of_le hv (two_zpow_le _ _ (by omega))
  · rw [if_neg ht]
    have hv : (2 : ℚ) ^ (e0 + 52) ≤ (n : ℚ) / d := not_lt.mp (fun h => ht ((htest e0).mpr h))
    rcases le_or_lt (-1074) e0 with hm | hm
    · rw [max_eq_left hm]
      exact ⟨hm, hupp, fun _ => hv⟩
    · rw [max_eq_right hm.le]
      refine ⟨le_rfl, ?_, fun h => absurd h (lt_irrefl _)⟩
      exact lt_of_lt_of_le hupp (two_zpow_le _ _ (by omega))

theorem roundHalfEven_near (A B : Nat) (hB : 0 < B) :
    2 * roundHalfEven A B * B ≤ 2 * A + B ∧ 2 * A ≤ 2 * roundHalfEven A B * B + B := by
  have hA : B * (A / B) + A % B = A := Nat.div_add_mod A B
  have hr : A % B < B := Nat.mod_lt A hB
  unfold roundHalfEven
  simp only
  generalize A / B = q at hA
  generalize A % B = r at hA hr
  subst hA
  split_ifs with h1 h2 h3
  · constructor <;> nlinarith
  · constructor <;> nlinarith
  · constructor <;> nlinarith
  · have : 2 * r < B := by omega
    constructor <;> nlinarith

theorem roundHalfEven_eq (A B c : Nat) (h1 : c * B ≤ A) (h2 : 2 * A < (2 * c + 1) * B) :
    roundHalfEven A B = c := by
  have hB : 0 < B := by
    rcases Nat.eq_zero_or_pos B with h | h
    · subst h; simp at h2
    · exact h
  have hq : A / B = c := by
    apply Nat.div_eq_of_lt_le
    · rw [Nat.mul_comm] at h1; rwa [Nat.mul_comm]
    · nlinarith
  have hA : B * (A / B) + A % B = A := Nat.div_add_mod A B
  unfold roundHalfEven
  simp only
  rw [hq] at hA ⊢
  have hr : 2 * (A % B) < B := by nlinarith
  rw [if_neg (by omega), if_neg (by omega)]

/-- The rounding of a positive rational in the normal range: the result is
finite, its exponent brackets the value, and its significand is the scaled
value rounded to an integer. -/
theorem roundF64_normal (neg : Bool) (n d : Nat) (hn : 0 < n) (hd : 0 < d)
    (hlo : (2 : ℚ) ^ (-1000 : Int) ≤ (n : ℚ) / d) (hhi : (n : ℚ) / d < (2 : ℚ) ^ (1000 : Int)) :
    ∃ (m : Nat) (e : Int), roundF64 neg n d = F64.fin neg m e ∧
      (2 : ℚ) ^ (e + 52) ≤ (n : ℚ) / d ∧ (n : ℚ) / d < (2 : ℚ) ^ (e + 53) ∧
      |(m : ℚ) - (n : ℚ) / d / (2 : ℚ) ^ e| ≤ 1 / 2 ∧
      (∀ c : Nat, (c : ℚ) ≤ (n : ℚ) / d / (2 : ℚ) ^ e →
        (n : ℚ) / d / (2 : ℚ) ^ e < (c : ℚ) + 1 / 2 → m = c) := by
  obtain ⟨h1, h2, h3⟩ := ulpExp_spec n d hn hd
  have hgt : -1074 < ulpExp n d := by
    by_contra hcon
    have he : ulpExp n d = -1074 := by omega
    rw [he] at h2
    have := lt_of_le_of_lt hlo h2
    rw [two_zpow_lt_iff] at this
    omega
  have h4 := h3 hgt
  have hlt : ulpExp n d < 948 := by
    have := lt_of_le_of_lt h4 hhi
    rw [two_zpow_lt_iff] at this
    omega
  have hB : 0 < d * 2 ^ (ulpExp n d).toNat := Nat.mul_pos hd (Nat.pos_of_ne_zero (by positivity))
  have hBq : (0 : ℚ) < ((d * 2 ^ (ulpExp n d).toNat : Nat) : ℚ) := by exact_mod_cast hB
  refine ⟨roundHalfEven (n * 2 ^ (-(ulpExp n d)).toNat) (d * 2 ^ (ulpExp n d).toNat),
    ulpExp n d, ?_, h4, h2, ?_, ?_⟩
  · unfold roundF64
    rw [if_neg (by omega)]
    simp only
    rw [if_neg (by omega)]
  · rw [← scaled_div]
    obtain ⟨ha, hb⟩ := roundHalfEven_near (n * 2 ^ (-(ulpExp n d)).toNat)
      (d * 2 ^ (ulpExp n d).toNat) hB
    generalize roundHalfEven (n * 2 ^ (-(ulpExp n d)).toNat) (d * 2 ^ (ulpExp n d).toNat) = m at ha hb
    generalize (n * 2 ^ (-(ulpExp n d)).toNat) = A at ha hb
    generalize (d * 2 ^ (ulpExp n d).toNat) = B at ha hb hBq
    have haq : (2 : ℚ) * m * B ≤ 2 * A + B := by exact_mod_cast ha
    have hbq : (2 : ℚ) * A ≤ 2 * m * B + B := by exact_mod_cast hb
    have hx : (A : ℚ) / B * B = A := div_mul_cancel₀ _ (ne_of_gt hBq)
    generalize (A : ℚ) / B = x at hx
    rw [abs_le]
    constructor <;> nlinarith
  · intro c hc1 hc2
    rw [← scaled_div] at hc1 hc2
    apply roundHalfEven_eq
    · rw [le_div_iff₀ hBq] at hc1
      exact_mod_cast hc1
    · rw [div_lt_iff₀ hBq] at hc2
      have : (2 : ℚ) * ((n * 2 ^ (-(ulpExp n d)).toNat : Nat) : ℚ)
          < ((2 * c + 1 : Nat) : ℚ) * ((d * 2 ^ (ulpExp n d).toNat : Nat) : ℚ) := by
        push_cast at hc2 ⊢
        nlinarith
      exact_mod_cast this

/-- Rounding a rational of the normal range changes it by at most the
fraction `2^-53` of itself. -/
theorem roundF64_rel (neg : Bool) (n d : Nat) (hn : 0 < n) (hd : 0 < d)
    (hlo : (2 : ℚ) ^ (-1000 : Int) ≤ (n : ℚ) / d) (hhi : (n : ℚ) / d < (2 : ℚ) ^ (1000 : Int)) :
    ∃ (m : Nat) (e : Int), roundF64 neg n d = F64.fin neg m e ∧
      |(m : ℚ) * (2 : ℚ) ^ e - (n : ℚ) / d| ≤ (n : ℚ) / d / 9007199254740992 := by
  obtain ⟨m, e, hr, h52, _, habs, _⟩ := roundF64_normal neg n d hn hd hlo hhi
  refine ⟨m, e, hr, ?_⟩
  have hp : (0 : ℚ) < (2 : ℚ) ^ e := two_zpow_pos e
  have e52 : (2 : ℚ) ^ (e + 52) = (2 : ℚ) ^ e * 4503599627370496 := by
    rw [zpow_add₀ two_ne_zero]; norm_num
  rw [e52] at h52
  have hx : (n : ℚ) / d / (2 : ℚ) ^ e * (2 : ℚ) ^ e = (n : ℚ) / d := div_mul_cancel₀ _ (ne_of_gt hp)
  generalize (n : ℚ) / d / (2 : ℚ) ^ e = x at hx habs
  generalize (n : ℚ) / d = v at hx h52
  generalize (2 : ℚ) ^ e = p at hx h52 hp
  rw [abs_le] at habs ⊢
  obtain ⟨ha, hb⟩ := habs
  constructor <;> nlinarith

/-- A rational that lies between a binary64 value `K / 2^j` and that value
increased by the fraction `2^-54` of itself is rounded to `K / 2^j`; in
particular binary64 values are rounded to themselves. -/
theorem roundF64_near (neg : Bool) (n d K j : Nat) (hn : 0 < n) (hd : 0 < d)
    (hlo : (2 : ℚ) ^ (-1000 : Int) ≤ (n : ℚ) / d) (hhi : (n : ℚ) / d < (2 : ℚ) ^ (1000 : Int))
    (hK : K < 9007199254740992)
    (h1 : (K : ℚ) / (2 : ℚ) ^ j ≤ (n : ℚ) / d)
    (h2 : (n : ℚ) / d ≤ (K : ℚ) / (2 : ℚ) ^ j * (1 + 1 / 18014398509481984)) :
    ∃ (m : Nat) (e : Int), roundF64 neg n d = F64.fin neg m e ∧
      (m : ℚ) * (2 : ℚ) ^ e = (K : ℚ) / (2 : ℚ) ^ j := by
  obtain ⟨m, e, hr, h52, h53, _, huniq⟩ := roundF64_normal neg n d hn hd hlo hhi
  refine ⟨m, e, hr, ?_⟩
  have hp : (0 : ℚ) < (2 : ℚ) ^ e := two_zpow_pos e
  have hj : (0 : ℚ) < (2 : ℚ) ^ j := by positivity
  have hKq : (K : ℚ) + 1 ≤ 9007199254740992 := by
    have : K + 1 ≤ 9007199254740992 := hK
    exact_mod_cast this
  have hK0 : (0 : ℚ) ≤ K := Nat.cast_nonneg K
  -- the exponent is at most `-j`
  have hej : e ≤ -(j : Int) := by
    have hlt : (2 : ℚ) ^ (e + 52) < (2 : ℚ) ^ (53 - (j : Int)) := by
      have e1 : (2 : ℚ) ^ (53 - (j : Int)) = 9007199254740992 / (2 : ℚ) ^ j := by
        rw [zpow_sub₀ two_ne_zero, zpow_natCast]; norm_num
      rw [e1]
      refine lt_of_le_of_lt (le_trans h52 h2) ?_
      rw [div_mul_eq_mul_div, div_lt_div_iff_of_pos_right hj]
      nlinarith
    rw [two_zpow_lt_iff] at hlt
    omega
  obtain ⟨k, hk⟩ := Int.eq_ofNat_of_zero_le (show 0 ≤ -(j : Int) - e by omega)
  have he : e = -(j : Int) - (k : Int) := by omega
  have hpe : (2 : ℚ) ^ e = 1 / ((2 : ℚ) ^ j * (2 : ℚ) ^ k) := by
    rw [he, zpow_sub₀ two_ne_zero, zpow_neg, zpow_natCast, zpow_natCast]
    field_simp
  have hk2 : (0 : ℚ) < (2 : ℚ) ^ k := by positivity
  have e53 : (2 : ℚ) ^ (e + 53) = (2 : ℚ) ^ e * 9007199254740992 := by
    rw [zpow_add₀ two_ne_zero]; norm_num
  rw [e53] at h53
  have hc : ((K * 2 ^ k : Nat) : ℚ) = (K : ℚ) / (2 : ℚ) ^ j / (2 : ℚ) ^ e := by
    rw [hpe]; push_cast; field_simp; ring
  have hm : m = K * 2 ^ k := by
    apply huniq
    · rw [hc]
      exact div_le_div_of_nonneg_right h1 hp.le
    · rw [hc, div_add' _ _ _ (ne_of_gt hp), div_lt_div_iff_of_pos_right hp]
      have h3 : (K : ℚ) / (2 : ℚ) ^ j ≤ (n : ℚ) / d := h1
      generalize (K : ℚ) / (2 : ℚ) ^ j = c0 at h1 h2 h3
      generalize (n : ℚ) / d = v at h1 h2 h3 h53
      generalize (2 : ℚ) ^ e = p at hp h53
      nlinarith
  rw [hm, hc]
  exact div_mul_cancel₀ _ (ne_of_gt hp)

theorem finValue_false (m : Nat) (e : Int) : finValue false m e = (m : ℚ) * (2 : ℚ) ^ e := by
  simp [finValue]

theorem dyadic_value (m : Nat) (e : Int) :
    ((dyadic m e).1 : ℚ) / ((dyadic m e).2 : ℚ) = (m : ℚ) * (2 : ℚ) ^ e := by
  unfold dyadic
  rw [two_zpow_eq e]
  push_cast
  ring

theorem dyadic_pos (m : Nat) (e : Int) (hm : 0 < m) : 0 < (dyadic m e).1 ∧ 0 < (dyadic m e).2 := by
  unfold dyadic
  exact ⟨Nat.mul_pos hm (Nat.pos_of_ne_zero (by positivity)), Nat.pos_of_ne_zero (by positivity)⟩

theorem mul_fin_eq (m k : Nat) (e f : Int) :
    F64.mul (F64.fin false m e) (F64.fin false k f)
      = roundF64 false (dyadic (m * k) (e + f)).1 (dyadic (m * k) (e + f)).2 := rfl

theorem truncFin_floor (m : Nat) (e : Int) : truncFin false m e = ⌊(m : ℚ) * (2 : ℚ) ^ e⌋ := by
  rw [← finValue_false]
  unfold truncFin
  by_cases he : e ≥ 0
  · rw [finValue_nonneg_exp false m e he]
    simp only [if_pos he, Bool.false_eq_true, if_false]
    rw [Int.floor_intCast]
  · rw [finValue_neg_exp false m e (by omega)]
    simp only [if_neg he, Bool.false_eq_true, if_false, one_mul]
    rw [floor_nat_div]

theorem toInt_fin_floor (conv : F64 → Int) (m : Nat) (e : Int)
    (h : ⌊(m : ℚ) * (2 : ℚ) ^ e⌋ ≤ 9223372036854775807) :
    F64.toInt conv (F64.fin false m e) = ⌊(m : ℚ) * (2 : ℚ) ^ e⌋ := by
  have h0 : 0 ≤ ⌊(m : ℚ) * (2 : ℚ) ^ e⌋ := Int.floor_nonneg.mpr (by positivity)
  unfold F64.toInt
  simp only
  rw [truncFin_floor, if_pos ⟨by omega, h⟩]

theorem normal_range (v : ℚ) (h1 : 1 / 1000000 ≤ v) (h2 : v ≤ 1000000000000000000) :
    (2 : ℚ) ^ (-1000 : Int) ≤ v ∧ v < (2 : ℚ) ^ (1000 : Int) := by
  have ha : (2 : ℚ) ^ (-1000 : Int) ≤ (2 : ℚ) ^ (-20 : Int) := two_zpow_le _ _ (by norm_num)
  have hb : (2 : ℚ) ^ (60 : Int) ≤ (2 : ℚ) ^ (1000 : Int) := two_zpow_le _ _ (by norm_num)
  have hc : (2 : ℚ) ^ (-20 : Int) = 1 / 1048576 := by norm_num [zpow_neg]
  have hd : (2 : ℚ) ^ (60 : Int) = 1152921504606846976 := by norm_num
  rw [hc] at ha
  rw [hd] at hb
  constructor
  · exact le_trans ha (le_trans (by norm_num) h1)
  · exact lt_of_le_of_lt h2 (lt_of_lt_of_le (by norm_num) hb)

theorem f0_2_eq : f0_2 = F64.fin false 7205759403792794 (-55) := by decide

/-- The amount of `C` cents, `C / 100`, rounded to binary64: the result is
finite and differs from `C / 100` by at most the fraction `2^-53` of it. -/
theorem roundF64_cents (C : Nat) (h1 : 1 ≤ C) (h2 : C < 1000000000000000) :
    ∃ (m : Nat) (e : Int), roundF64 false C 100 = F64.fin false m e ∧ 0 < m ∧
      |(m : ℚ) * (2 : ℚ) ^ e - (C : ℚ) / 100| ≤ (C : ℚ) / 100 / 9007199254740992 := by
  have hC1 : (1 : ℚ) ≤ C := by exact_mod_cast h1
  have hC2 : (C : ℚ) < 1000000000000000 := by exact_mod_cast h2
  have hr := normal_range ((C : ℚ) / 100) (by linarith) (by linarith)
  have hcast : ((C : Nat) : ℚ) / ((100 : Nat) : ℚ) = (C : ℚ) / 100 := by push_cast; rfl
  rw [← hcast] at hr
  obtain ⟨m, e, hr, herr⟩ := roundF64_rel false C 100 (by omega) (by norm_num) hr.1 hr.2
  rw [hcast] at herr
  refine ⟨m, e, hr, ?_, herr⟩
  rcases Nat.eq_zero_or_pos m with h0 | h0
  · subst h0
    rw [abs_le] at herr
    simp only [Nat.cast_zero, zero_mul, zero_sub] at herr
    linarith [herr.1]
  · exact h0

/-- The product of a finite value with another, as a rounding of the exact product. -/
theorem mul_fin_round (m1 k : Nat) (e1 f : Int) (hm : 0 < m1) (hk : 0 < k) :
    ∃ n2 d2 : Nat, 0 < n2 ∧ 0 < d2 ∧
      (n2 : ℚ) / d2 = (m1 : ℚ) * (2 : ℚ) ^ e1 * ((k : ℚ) * (2 : ℚ) ^ f) ∧
      F64.mul (F64.fin false m1 e1) (F64.fin false k f) = roundF64 false n2 d2 := by
  obtain ⟨hn2, hd2⟩ := dyadic_pos (m1 * k) (e1 + f) (Nat.mul_pos hm hk)
  refine ⟨_, _, hn2, hd2, ?_, mul_fin_eq m1 k e1 f⟩
  rw [dyadic_value, zpow_add₀ two_ne_zero]
  push_cast
  ring

/-- The computation `int(price * 100)` on an amount of `C` cents: the result
is `C` or `C - 1`. -/
theorem cents_near (conv : F64 → Int) (C : Nat) (h1 : 1 ≤ C) (h2 : C < 1000000000000000) :
    F64.toInt conv (F64.mul (roundF64 false C 100) f100) = (C : Int) ∨
    F64.toInt conv (F64.mul (roundF64 false C 100) f100) = (C : Int) - 1 := by
  have hC1 : (1 : ℚ) ≤ C := by exact_mod_cast h1
  have hC2 : (C : ℚ) < 1000000000000000 := by exact_mod_cast h2
  obtain ⟨m1, e1, hr1, hm1, herr1⟩ := roundF64_cents C h1 h2
  obtain ⟨n2, d2, hn2, hd2, hv2, hmul⟩ := mul_fin_round m1 100 e1 0 hm1 (by norm_num)
  rw [hr1, f100, hmul]
  rw [abs_le] at herr1
  obtain ⟨ha1, hb1⟩ := herr1
  generalize (m1 : ℚ) * (2 : ℚ) ^ e1 = v1 at ha1 hb1 hv2
  have hv2b : (n2 : ℚ) / d2 = 100 * v1 := by rw [hv2]; norm_num; ring
  have hr := normal_range (100 * v1) (by linarith) (by linarith)
  rw [← hv2b] at hr
  obtain ⟨m2, e2, hr2, herr2⟩ := roundF64_rel false n2 d2 hn2 hd2 hr.1 hr.2
  rw [hr2]
  rw [hv2b, abs_le] at herr2
  obtain ⟨ha2, hb2⟩ := herr2
  have hf1 : (C : Int) - 1 ≤ ⌊(m2 : ℚ) * (2 : ℚ) ^ e2⌋ := by
    rw [Int.le_floor]; push_cast; linarith
  have hf2 : ⌊(m2 : ℚ) * (2 : ℚ) ^ e2⌋ < (C : Int) + 1 := by
    rw [Int.floor_lt]; push_cast; linarith
  rw [toInt_fin_floor conv m2 e2 (by omega)]
  omega

/-- The computation `int(price * 100)` on an amount of `C` cents that is a
multiple of 25: the result is `C`. -/
theorem cents_exact (conv : F64 → Int) (C : Nat) (h1 : 1 ≤ C) (h2 : C < 1000000000000000)
    (h25 : 25 ∣ C) :
    F64.toInt conv (F64.mul (roundF64 false C 100) f100) = (C : Int) := by
  obtain ⟨K, rfl⟩ := h25
  have hK1 : (1 : ℚ) ≤ K := by
    have : 1 ≤ K := by omega
    exact_mod_cast this
  have hK2 : (K : ℚ) < 40000000000000 := by
    have : K < 40000000000000 := by omega
    exact_mod_cast this
  have hv1 : (((25 * K : Nat) : ℚ)) / ((100 : Nat) : ℚ) = (K : ℚ) / (2 : ℚ) ^ 2 := by
    push_cast; ring
  have hr := normal_range ((K : ℚ) / (2 : ℚ) ^ 2) (by linarith) (by linarith)
  rw [← hv1] at hr
  obtain ⟨m1, e1, hr1, hval1⟩ := roundF64_near false (25 * K) 100 K 2 (by omega) (by norm_num)
    hr.1 hr.2 (by omega) (le_of_eq hv1.symm) (by rw [hv1]; linarith)
  have hm1 : 0 < m1 := by
    rcases Nat.eq_zero_or_pos m1 with h0 | h0
    · subst h0
      simp only [Nat.cast_zero, zero_mul] at hval1
      linarith
    · exact h0
  obtain ⟨n2, d2, hn2, hd2, hv2, hmul⟩ := mul_fin_round m1 100 e1 0 hm1 (by norm_num)
  rw [hr1, f100, hmul]
  have hv2b : (n2 : ℚ) / d2 = ((25 * K : Nat) : ℚ) / (2 : ℚ) ^ 0 := by
    rw [hv2, hval1]; push_cast; norm_num; ring
  have hv2c : ((25 * K : Nat) : ℚ) / (2 : ℚ) ^ 0 = 25 * K := by push_cast; ring
  have hr2 := normal_range (25 * (K : ℚ)) (by linarith) (by linarith)
  rw [← hv2c, ← hv2b] at hr2
  obtain ⟨m2, e2, hr2, hval2⟩ := roundF64_near false n2 d2 (25 * K) 0 hn2 hd2 hr2.1 hr2.2
    (by omega) (le_of_eq hv2b.symm) (by rw [hv2b, hv2c]; linarith)
  rw [hr2]
  have hw : (m2 : ℚ) * (2 : ℚ) ^ e2 = (((25 * K : Nat) : Int) : ℚ) := by
    rw [hval2]; push_cast; ring
  have hfl : ⌊(m2 : ℚ) * (2 : ℚ) ^ e2⌋ = ((25 * K : Nat) : Int) := by
    rw [hw, Int.floor_intCast]
  rw [toInt_fin_floor conv m2 e2 (by rw [hfl]; omega), hfl]

theorem f0_2_value :
    ((7205759403792794 : Nat) : ℚ) * (2 : ℚ) ^ (-55 : Int)
      = 1 / 5 * (1 + 1 / 18014398509481984) := by
  norm_num [zpow_neg]

theorem toInt_ceil_fin (conv : F64 → Int) (m : Nat) (e : Int) (z : Int)
    (hz : ⌈(m : ℚ) * (2 : ℚ) ^ e⌉ = z) (h1 : 0 ≤ z) (h2 : z ≤ 9223372036854775807) :
    F64.toInt conv (F64.ceil (F64.fin false m e)) = z := by
  rw [← finValue_false] at hz
  rw [toInt_ceil_eq_ceil conv false m e (by rw [hz]; omega) (by rw [hz]; exact h2), hz]

/-- The computation `int(math.Ceil(price * 0.2))` on an amount of `C` cents
that is not a multiple of five dollars: the result is the exact ceiling. -/
theorem bonus_inexact (conv : F64 → Int) (C : Nat) (h2 : C < 1000000000000000)
    (h500 : C % 500 ≠ 0) :
    F64.toInt conv (F64.ceil (F64.mul (roundF64 false C 100) f0_2)) = ((C / 500 + 1 : Nat) : Int) := by
  have h1 : 1 ≤ C := by omega
  have hC1 : (1 : ℚ) ≤ C := by exact_mod_cast h1
  have hC2 : (C : ℚ) < 1000000000000000 := by exact_mod_cast h2
  have hdm : 500 * (C / 500) + C % 500 = C := Nat.div_add_mod C 500
  have hrlt : C % 500 < 500 := Nat.mod_lt C (by norm_num)
  generalize C / 500 = q at hdm
  generalize C % 500 = r at hdm hrlt h500
  have hdmq : 500 * (q : ℚ) + (r : ℚ) = (C : ℚ) := by exact_mod_cast hdm
  have hr1q : (1 : ℚ) ≤ (r : ℚ) := by
    have : 1 ≤ r := by omega
    exact_mod_cast this
  have hr2q : (r : ℚ) ≤ 499 := by
    have : r ≤ 499 := by omega
    exact_mod_cast this
  obtain ⟨m1, e1, hr1, hm1, herr1⟩ := roundF64_cents C h1 h2
  obtain ⟨n2, d2, hn2, hd2, hv2, hmul⟩ :=
    mul_fin_round m1 7205759403792794 e1 (-55) hm1 (by norm_num)
  rw [hr1, f0_2_eq, hmul]
  rw [f0_2_value] at hv2
  rw [abs_le] at herr1
  obtain ⟨ha1, hb1⟩ := herr1
  generalize (m1 : ℚ) * (2 : ℚ) ^ e1 = v1 at ha1 hb1 hv2
  have hr := normal_range (v1 * (1 / 5 * (1 + 1 / 18014398509481984))) (by linarith) (by linarith)
  rw [← hv2] at hr
  obtain ⟨m2, e2, hr2, herr2⟩ := roundF64_rel false n2 d2 hn2 hd2 hr.1 hr.2
  rw [hr2]
  rw [hv2, abs_le] at herr2
  obtain ⟨ha2, hb2⟩ := herr2
  apply toInt_ceil_fin
  · rw [Int.ceil_eq_iff]
    push_cast
    constructor
    · linarith
    · linarith
  · omega
  · omega

/-- The computation `int(math.Ceil(price * 0.2))` on an amount that is a
multiple of five dollars: the result is the exact product. -/
theorem bonus_exact (conv : F64 → Int) (k : Nat) (h1 : 1 ≤ k) (h2 : 500 * k < 1000000000000000) :
    F64.toInt conv (F64.ceil (F64.mul (roundF64 false (500 * k) 100) f0_2)) = (k : Int) := by
  have hK1 : (1 : ℚ) ≤ k := by exact_mod_cast h1
  have hK2 : (k : ℚ) < 2000000000000 := by
    have : k < 2000000000000 := by omega
    exact_mod_cast this
  have hv1 : (((500 * k : Nat) : ℚ)) / ((100 : Nat) : ℚ) = ((5 * k : Nat) : ℚ) / (2 : ℚ) ^ 0 := by
    push_cast; ring
  have hv1c : ((5 * k : Nat) : ℚ) / (2 : ℚ) ^ 0 = 5 * k := by push_cast; ring
  have hr := normal_range (5 * (k : ℚ)) (by linarith) (by linarith)
  rw [← hv1c, ← hv1] at hr
  obtain ⟨m1, e1, hr1, hval1⟩ := roundF64_near false (500 * k) 100 (5 * k) 0 (by omega)
    (by norm_num) hr.1 hr.2 (by omega) (le_of_eq hv1.symm) (by rw [hv1, hv1c]; linarith)
  rw [hv1c] at hval1
  have hm1 : 0 < m1 := by
    rcases Nat.eq_zero_or_pos m1 with h0 | h0
    · subst h0
      simp only [Nat.cast_zero, zero_mul] at hval1
      linarith
    · exact h0
  obtain ⟨n2, d2, hn2, hd2, hv2, hmul⟩ :=
    mul_fin_round m1 7205759403792794 e1 (-55) hm1 (by norm_num)
  rw [hr1, f0_2_eq, hmul]
  rw [f0_2_value, hval1] at hv2
  have hk0 : (k : ℚ) / (2 : ℚ) ^ 0 = k := by norm_num
  have hr2 := normal_range (5 * (k : ℚ) * (1 / 5 * (1 + 1 / 18014398509481984)))
    (by linarith) (by linarith)
  rw [← hv2] at hr2
  obtain ⟨m2, e2, hr2, hval2⟩ := roundF64_near false n2 d2 k 0 hn2 hd2 hr2.1 hr2.2
    (by omega) (by rw [hv2, hk0]; linarith) (by rw [hv2, hk0]; linarith)
  rw [hr2]
  apply toInt_ceil_fin
  · rw [hval2, hk0]
    exact_mod_cast Int.ceil_intCast (k : Int)
  · omega
  · omega

/-- The computation `int(math.Ceil(price * 0.2))` on an amount of `C` cents
below `10^15`: the result is the exact ceiling of `C / 500`. -/
theorem bonus_plain (conv : F64 → Int) (C : Nat) (h2 : C < 1000000000000000) :
    F64.toInt conv (F64.ceil (F64.mul (roundF64 false C 100) f0_2)) = (((C + 499) / 500 : Nat) : Int) := by
  by_cases h500 : C % 500 = 0
  · obtain ⟨k, rfl⟩ := Nat.dvd_of_mod_eq_zero h500
    rcases Nat.eq_zero_or_pos k with h0 | h0
    · subst h0
      rfl
    · rw [bonus_exact conv k h0 h2]
      congr 1
      omega
  · rw [bonus_inexact conv C h2 h500]
    congr 1
    omega

/-- The computation `int(price * 100)` on an amount of `C` cents below `10^15`
decides divisibility by 25 correctly, unless `C` leaves the remainder 1. -/
theorem cents_plain (conv : F64 → Int) (C : Nat) (h2 : C < 1000000000000000)
    (h1 : C % 25 ≠ 1) :
    ((25 : Int) ∣ F64.toInt conv (F64.mul (roundF64 false C 100) f100)) ↔ C % 25 = 0 := by
  rcases Nat.eq_zero_or_pos C with h0 | h0
  · subst h0
    have : F64.toInt conv (F64.mul (roundF64 false 0 100) f100) = 0 := rfl
    rw [this]
    simp
  · by_cases h25 : C % 25 = 0
    · rw [cents_exact conv C h0 h2 (Nat.dvd_of_mod_eq_zero h25)]
      simp only [h25, iff_true]
      omega
    · simp only [h25, iff_false]
      rcases cents_near conv C h0 h2 with h | h
      · rw [h]; omega
      · rw [h]; omega

/-! ## Lemmas on the scan of a plain amount -/

theorem digit_mem (c : Char) (h : isDecDigit c = true) : c ∈ "0123456789".data := by
  have h1 := digitChar_of_digit c h
  have h2 := digit_bounds c h
  generalize c.toNat - 48 = k at h1 h2
  subst h1
  interval_cases k <;> decide

theorem plain_decomp (s : String) (h : isPlainAmount s = true) :
    ∃ (c0 : Char) (ds : List Char) (a b : Char), s.data = c0 :: ds ++ ['.', a, b] ∧
      isDecDigit c0 = true ∧ (∀ c ∈ ds, isDecDigit c = true) ∧ ds.length ≤ 12 ∧
      isDecDigit a = true ∧ isDecDigit b = true := by
  unfold isPlainAmount at h
  have hrev : s.data = s.data.reverse.reverse := (List.reverse_reverse _).symm
  generalize s.data.reverse = r at h hrev
  match r, h with
  | b :: a :: p :: ds, h =>
    simp only [Bool.and_eq_true, beq_iff_eq, List.all_eq_true, decide_eq_true_eq] at h
    obtain ⟨⟨⟨⟨hp, ha⟩, hb⟩, hds⟩, hl1, hl2⟩ := h
    subst hp
    have hne : ds.reverse ≠ [] := by
      intro hnil
      have : ds.reverse.length = 0 := by rw [hnil]; rfl
      rw [List.length_reverse] at this
      omega
    obtain ⟨c0, t, ht⟩ := List.exists_cons_of_ne_nil hne
    refine ⟨c0, t, a, b, ?_, ?_, ?_, ?_, ha, hb⟩
    · rw [hrev]
      simp [ht]
    · apply hds
      rw [← List.mem_reverse, ht]
      exact List.mem_cons_self _ _
    · intro c hc
      apply hds
      rw [← List.mem_reverse, ht]
      exact List.mem_cons_of_mem _ hc
    · have : ds.reverse.length = t.length + 1 := by rw [ht]; rfl
      rw [List.length_reverse] at this
      omega

theorem accept_of_mem (c : Char) (rest buf : List Char) (ok : String) (h : c ∈ ok.data) :
    ss.accept ⟨c :: rest, buf⟩ ok = (true, ⟨rest, buf ++ [c]⟩) := by
  unfold ss.accept
  simp only
  rw [if_pos h]

theorem acceptLoop_append (ok : String) (ds rest buf : List Char)
    (hds : ∀ c ∈ ds, c ∈ ok.data) (hrest : ∀ c ∈ rest.head?, c ∉ ok.data) :
    acceptLoop ok (ds ++ rest) buf = ⟨rest, buf ++ ds⟩ := by
  induction ds generalizing buf with
  | nil =>
    cases rest with
    | nil => simp [acceptLoop]
    | cons r rs =>
      simp only [List.nil_append, List.append_nil]
      exact acceptLoop_of_not_mem r rs buf ok (hrest r (by simp))
  | cons d ds ih =>
    rw [List.cons_append]
    unfold acceptLoop
    rw [if_pos (hds d (List.mem_cons_self _ _)), ih _ (fun c hc => hds c (List.mem_cons_of_mem _ hc))]
    simp

theorem floatToken_plain (c0 : Char) (ds : List Char) (a b : Char) (h0 : isDecDigit c0 = true)
    (hds : ∀ c ∈ ds, isDecDigit c = true) (ha : isDecDigit a = true) (hb : isDecDigit b = true) :
    floatToken ⟨c0 :: ds ++ ['.', a, b], []⟩ = c0 :: ds ++ ['.', a, b] := by
  have hdig : ∀ c, isDecDigit c = true → c ∈ "0123456789_".data := by
    intro c hc
    have := digit_mem c hc
    revert this
    generalize c = x
    revert x
    decide
  have hnot : ∀ ok : String, (∀ x ∈ "0123456789.".data, x ∉ ok.data) →
      ∀ c, (isDecDigit c = true ∨ c = '.') → c ∉ ok.data := by
    intro ok hok c hc
    apply hok
    rcases hc with hc | hc
    · have := digit_mem c hc
      revert this
      generalize c = x
      revert x
      decide
    · subst hc; decide
  have h1 : c0 ∉ "nN".data := hnot _ (by decide) c0 (Or.inl h0)
  have h2 : c0 ∉ "+-".data := hnot _ (by decide) c0 (Or.inl h0)
  have h3 : c0 ∉ "iI".data := hnot _ (by decide) c0 (Or.inl h0)
  have hdot : ('.' : Char) ∉ "0123456789_".data := by decide
  have hloop : ∀ buf, acceptLoop "0123456789_" (ds ++ ['.', a, b]) buf = ⟨['.', a, b], buf ++ ds⟩ :=
    fun buf => acceptLoop_append _ ds _ buf (fun c hc => hdig c (hds c hc))
      (by intro c hc; simp at hc; subst hc; exact hdot)
  have hloop2 : ∀ buf, acceptLoop "0123456789_" [a, b] buf = ⟨[], buf ++ [a, b]⟩ := by
    intro buf
    have := acceptLoop_append "0123456789_" [a, b] [] buf
      (by intro c hc; simp at hc; rcases hc with rfl | rfl; exact hdig _ ha; exact hdig _ hb)
      (by simp)
    simpa using this
  have hx : ∀ buf, ss.accept ⟨ds ++ ['.', a, b], buf⟩ "xX" = (false, ⟨ds ++ ['.', a, b], buf⟩) := by
    intro buf
    cases ds with
    | nil => exact accept_of_not_mem _ _ _ _ (by decide)
    | cons d t =>
      exact accept_of_not_mem _ _ _ _
        (hnot _ (by decide) d (Or.inl (hds d (List.mem_cons_self _ _))))
  unfold floatToken
  simp only [List.cons_append, accept_of_not_mem c0 _ [] _ h1, accept_of_not_mem c0 _ [] _ h2,
    accept_of_not_mem c0 _ [] _ h3, Bool.false_eq_true, if_false]
  by_cases hz : c0 = '0'
  · subst hz
    simp only [accept_of_mem '0' _ [] "0" (by decide), if_true, hx, Bool.false_eq_true, if_false,
      hloop, accept_of_mem '.' _ _ "." (by decide), hloop2]
    simp [ss.accept]
  · have h4 : c0 ∉ "0".data := by simpa using hz
    simp only [accept_of_not_mem c0 _ [] _ h4, Bool.false_eq_true, if_false]
    have hloop' : acceptLoop "0123456789_" (c0 :: (ds ++ ['.', a, b])) [] = ⟨['.', a, b], c0 :: ds⟩ := by
      have := acceptLoop_append "0123456789_" (c0 :: ds) ['.', a, b] []
        (by intro c hc; simp at hc; rcases hc with rfl | hc; exact hdig _ h0; exact hdig _ (hds c hc))
        (by intro c hc; simp at hc; subst hc; exact hdot)
      simpa using this
    simp only [hloop', accept_of_mem '.' _ _ "." (by decide), if_true, hloop2]
    simp [ss.accept]

theorem digit_ne (c : Char) (h : isDecDigit c = true) (x : Char)
    (hx : x ∉ "0123456789".data) : c ≠ x := by
  intro e
  subst e
  exact hx (digit_mem c h)

theorem readDigits_digit (c : Char) (cs : List Char) (st : ReadState) (h : isDecDigit c = true) :
    readDigits 10 (c :: cs) st =
      if c = '0' ∧ st.nd = 0 then
        readDigits 10 cs { st with sawdigits := true, dp := st.dp - 1 }
      else
        readDigits 10 cs { st with sawdigits := true, nd := st.nd + 1,
                                   mantissa := st.mantissa * 10 + (c.toNat - 48) } := by
  have h1 : c ≠ '_' := digit_ne c h _ (by decide)
  have h2 : c ≠ '.' := digit_ne c h _ (by decide)
  rw [readDigits]
  simp only [if_neg h1, if_neg h2, h, if_true]

theorem readDigits_dot (cs : List Char) (st : ReadState) (h : st.sawdot = false) :
    readDigits 10 ('.' :: cs) st = readDigits 10 cs { st with sawdot := true, dp := st.nd } := by
  rw [readDigits]
  simp [h]

theorem readDigits_run (ds rest : List Char) (st : ReadState)
    (hds : ∀ c ∈ ds, isDecDigit c = true) (hinv : st.nd = 0 → st.mantissa = 0) :
    ∃ st1 : ReadState, readDigits 10 (ds ++ rest) st = readDigits 10 rest st1 ∧
      st1.mantissa = ds.foldl (fun n c => n * 10 + (c.toNat - 48)) st.mantissa ∧
      (st1.nd = 0 → st1.mantissa = 0) ∧ st1.sawdot = st.sawdot ∧
      st1.underscores = st.underscores ∧
      (st.sawdigits = true ∨ ds ≠ [] → st1.sawdigits = true) ∧
      st1.dp - (st1.nd : Int) = st.dp - (st.nd : Int) - (ds.length : Int) := by
  induction ds generalizing st with
  | nil =>
    exact ⟨st, rfl, rfl, hinv, rfl, rfl, fun h => h.elim id (fun h2 => absurd rfl h2), by simp⟩
  | cons c cs ih =>
    have hc := hds c (List.mem_cons_self _ _)
    have hcs : ∀ x ∈ cs, isDecDigit x = true := fun x hx => hds x (List.mem_cons_of_mem _ hx)
    rw [List.cons_append, readDigits_digit c _ st hc]
    by_cases hz : c = '0' ∧ st.nd = 0
    · rw [if_pos hz]
      obtain ⟨st1, h1, h2, h3, h4, h5, h6, h7⟩ :=
        ih { st with sawdigits := true, dp := st.dp - 1 } hcs hinv
      refine ⟨st1, h1, ?_, h3, h4, h5, ?_, ?_⟩
      · rw [h2, List.foldl_cons, hinv hz.2, hz.1]
        rfl
      · exact fun _ => h6 (Or.inl rfl)
      · rw [h7]
        simp only [List.length_cons]
        push_cast
        ring
    · rw [if_neg hz]
      obtain ⟨st1, h1, h2, h3, h4, h5, h6, h7⟩ :=
        ih { st with sawdigits := true, nd := st.nd + 1,
                     mantissa := st.mantissa * 10 + (c.toNat - 48) } hcs (by simp)
      refine ⟨st1, h1, ?_, h3, h4, h5, ?_, ?_⟩
      · rw [h2, List.foldl_cons]
      · exact fun _ => h6 (Or.inl rfl)
      · rw [h7]
        simp only [List.length_cons]
        push_cast
        ring


theorem foldl_digits_lt (ds : List Char) (n : Nat) (hds : ∀ c ∈ ds, isDecDigit c = true) :
    ds.foldl (fun n c => n * 10 + (c.toNat - 48)) n < (n + 1) * 10 ^ ds.length := by
  induction ds generalizing n with
  | nil => simp
  | cons c cs ih =>
    rw [List.foldl_cons, List.length_cons]
    have hc := digit_bounds c (hds c (List.mem_cons_self _ _))
    have h1 := ih (n * 10 + (c.toNat - 48)) (fun x hx => hds x (List.mem_cons_of_mem _ hx))
    have h2 : (n * 10 + (c.toNat - 48) + 1) * 10 ^ cs.length ≤ (n + 1) * 10 ^ (cs.length + 1) := by
      rw [pow_succ]
      have : n * 10 + (c.toNat - 48) + 1 ≤ (n + 1) * 10 := by omega
      calc (n * 10 + (c.toNat - 48) + 1) * 10 ^ cs.length
          ≤ ((n + 1) * 10) * 10 ^ cs.length := Nat.mul_le_mul_right _ this
        _ = (n + 1) * (10 ^ cs.length * 10) := by ring
    omega

/-- The digits of a plain amount, read as a number, are its `decimalCents`:
a number below `10^15`. -/
theorem decimalCents_plain (s : String) (c0 : Char) (ds : List Char) (a b : Char)
    (hs : s.data = c0 :: ds ++ ['.', a, b]) (h0 : isDecDigit c0 = true)
    (hds : ∀ c ∈ ds, isDecDigit c = true) (hlen : ds.length ≤ 12)
    (ha : isDecDigit a = true) (hb : isDecDigit b = true) :
    decimalCents s = [a, b].foldl (fun n c => n * 10 + (c.toNat - 48))
      ((c0 :: ds).foldl (fun n c => n * 10 + (c.toNat - 48)) 0) ∧
    decimalCents s < 1000000000000000 := by
  have hall : ∀ c ∈ c0 :: ds ++ [a, b], isDecDigit c = true := by
    intro c hc
    simp only [List.cons_append, List.mem_cons, List.mem_append, List.mem_singleton,
      List.not_mem_nil, or_false] at hc
    rcases hc with rfl | hc | rfl | rfl
    · exact h0
    · exact hds c hc
    · exact ha
    · exact hb
  have hfilter : s.data.filter isDecDigit = c0 :: ds ++ [a, b] := by
    have hdsf : ds.filter isDecDigit = ds := List.filter_eq_self.mpr hds
    have hdot : isDecDigit '.' = false := by decide
    rw [hs]
    simp [List.filter_cons, List.filter_append, h0, ha, hb, hdsf, hdot]
  have heq : decimalCents s = (c0 :: ds ++ [a, b]).foldl (fun n c => n * 10 + (c.toNat - 48)) 0 := by
    unfold decimalCents
    rw [hfilter]
  constructor
  · rw [heq, List.foldl_append]
  · rw [heq]
    have h := foldl_digits_lt (c0 :: ds ++ [a, b]) 0 hall
    have hl : (c0 :: ds ++ [a, b]).length ≤ 15 := by simp; omega
    have hp : 10 ^ (c0 :: ds ++ [a, b]).length ≤ 10 ^ 15 := Nat.pow_le_pow_right (by norm_num) hl
    have e15 : (10 : Nat) ^ 15 = 1000000000000000 := by norm_num
    omega

/-- The digit loop of `readFloat` on a plain amount. -/
theorem readDigits_plain (c0 : Char) (ds : List Char) (a b : Char) (h0 : isDecDigit c0 = true)
    (hds : ∀ c ∈ ds, isDecDigit c = true) (ha : isDecDigit a = true) (hb : isDecDigit b = true) :
    ∃ st : ReadState, readDigits 10 (c0 :: ds ++ ['.', a, b]) ⟨0, 0, 0, false, false, false⟩ = (st, []) ∧
      st.mantissa = [a, b].foldl (fun n c => n * 10 + (c.toNat - 48))
        ((c0 :: ds).foldl (fun n c => n * 10 + (c.toNat - 48)) 0) ∧
      st.sawdot = true ∧ st.sawdigits = true ∧ st.underscores = false ∧
      st.dp - (st.nd : Int) = -2 := by
  obtain ⟨st1, h1, h2, h3, h4, h5, h6, _⟩ := readDigits_run (c0 :: ds) ['.', a, b]
    ⟨0, 0, 0, false, false, false⟩
    (by intro c hc; simp at hc; rcases hc with rfl | hc; exact h0; exact hds c hc) (fun _ => rfl)
  obtain ⟨st3, k1, k2, k3, k4, k5, k6, k7⟩ := readDigits_run [a, b] []
    { st1 with sawdot := true, dp := st1.nd }
    (by intro c hc; simp at hc; rcases hc with rfl | rfl; exact ha; exact hb) h3
  refine ⟨st3, ?_, ?_, k4, k6 (Or.inr (by simp)), ?_, ?_⟩
  · rw [h1, readDigits_dot _ _ h4]
    simp only [List.append_nil] at k1
    rw [k1]
    rfl
  · rw [k2, h2]
  · rw [k5]; exact h5
  · rw [k7]
    simp

theorem readFloat_core (c0 c1 c2 : Char) (rest : List Char) (st : ReadState)
    (h0 : isDecDigit c0 = true) (hc1 : lower c1 ≠ 120)
    (hrd : readDigits 10 (c0 :: c1 :: c2 :: rest) ⟨0, 0, 0, false, false, false⟩ = (st, []))
    (hsd : st.sawdot = true) (hsg : st.sawdigits = true) (hus : st.underscores = false)
    (hdp : st.dp - (st.nd : Int) = -2) :
    readFloat (c0 :: c1 :: c2 :: rest)
      = some ⟨false, st.mantissa, if st.mantissa ≠ 0 then -2 else 0, false, []⟩ := by
  have h1 : c0 ≠ '+' := digit_ne c0 h0 _ (by decide)
  have h2 : c0 ≠ '-' := digit_ne c0 h0 _ (by decide)
  unfold readFloat
  simp only [h1, h2, or_self, if_false, hc1, and_false, decide_False, Bool.false_eq_true, hrd,
    hsg, hsd, hus, not_true_eq_false, if_true, false_and]
  rw [hdp]

theorem lower_ne_x (c : Char) (h : isDecDigit c = true ∨ c = '.') : lower c ≠ 120 := by
  have hmem : c ∈ "0123456789.".data := by
    rcases h with h | h
    · have := digit_mem c h
      revert this
      generalize c = x
      revert x
      decide
    · subst h; decide
  revert hmem
  generalize c = x
  revert x
  decide

theorem readFloat_plain (c0 : Char) (ds : List Char) (a b : Char) (h0 : isDecDigit c0 = true)
    (hds : ∀ c ∈ ds, isDecDigit c = true) (ha : isDecDigit a = true) (hb : isDecDigit b = true) :
    ∃ C : Nat, C = [a, b].foldl (fun n c => n * 10 + (c.toNat - 48))
        ((c0 :: ds).foldl (fun n c => n * 10 + (c.toNat - 48)) 0) ∧
      readFloat (c0 :: ds ++ ['.', a, b])
        = some ⟨false, C, if C ≠ 0 then -2 else 0, false, []⟩ := by
  obtain ⟨st, hrd, hm, hsd, hsg, hus, hdp⟩ := readDigits_plain c0 ds a b h0 hds ha hb
  refine ⟨st.mantissa, hm, ?_⟩
  match ds, hds, hrd with
  | [], _, hrd =>
    exact readFloat_core c0 '.' a [b] st h0 (by decide) hrd hsd hsg hus hdp
  | [d], hds, hrd =>
    exact readFloat_core c0 d '.' [a, b] st h0
      (lower_ne_x d (Or.inl (hds d (List.mem_cons_self _ _)))) hrd hsd hsg hus hdp
  | d :: e :: t, hds, hrd =>
    exact readFloat_core c0 d e (t ++ ['.', a, b]) st h0
      (lower_ne_x d (Or.inl (hds d (List.mem_cons_self _ _)))) hrd hsd hsg hus hdp

theorem roundF64_zero (neg : Bool) (d : Nat) : roundF64 neg 0 d = F64.fin neg 0 0 := by
  unfold roundF64
  rw [if_pos rfl]


theorem ParseFloat_plain (c0 : Char) (ds : List Char) (a b : Char) (h0 : isDecDigit c0 = true)
    (hds : ∀ c ∈ ds, isDecDigit c = true) (hlen : ds.length ≤ 12)
    (ha : isDecDigit a = true) (hb : isDecDigit b = true) :
    ∃ C : Nat, C = [a, b].foldl (fun n c => n * 10 + (c.toNat - 48))
        ((c0 :: ds).foldl (fun n c => n * 10 + (c.toNat - 48)) 0) ∧
      ParseFloat (c0 :: ds ++ ['.', a, b]) = some (roundF64 false C 100) := by
  obtain ⟨C, hC, hrf⟩ := readFloat_plain c0 ds a b h0 hds ha hb
  refine ⟨C, hC, ?_⟩
  have hClt : C < 1000000000000000 := by
    have hall : ∀ c ∈ c0 :: ds ++ [a, b], isDecDigit c = true := by
      intro c hc
      simp only [List.cons_append, List.mem_cons, List.mem_append, List.mem_singleton,
        List.not_mem_nil, or_false] at hc
      rcases hc with rfl | hc | rfl | rfl
      · exact h0
      · exact hds c hc
      · exact ha
      · exact hb
    have h := foldl_digits_lt (c0 :: ds ++ [a, b]) 0 hall
    rw [List.foldl_append, ← hC] at h
    have hl : (c0 :: ds ++ [a, b]).length ≤ 15 := by simp; omega
    have hp : 10 ^ (c0 :: ds ++ [a, b]).length ≤ 10 ^ 15 := Nat.pow_le_pow_right (by norm_num) hl
    have e15 : (10 : Nat) ^ 15 = 1000000000000000 := by norm_num
    omega
  have hsp : special (c0 :: ds ++ ['.', a, b]) = none := by
    have h1 : c0 ≠ '+' := digit_ne c0 h0 _ (by decide)
    have h2 : c0 ≠ '-' := digit_ne c0 h0 _ (by decide)
    have h3 : c0 ≠ 'i' := digit_ne c0 h0 _ (by decide)
    have h4 : c0 ≠ 'I' := digit_ne c0 h0 _ (by decide)
    have h5 : c0 ≠ 'n' := digit_ne c0 h0 _ (by decide)
    have h6 : c0 ≠ 'N' := digit_ne c0 h0 _ (by decide)
    simp only [List.cons_append, special, h1, h2, h3, h4, h5, h6, or_self, if_false]
  unfold ParseFloat
  simp only [hsp, hrf, ne_eq, not_true_eq_false, if_false, Bool.false_eq_true]
  rcases Nat.eq_zero_or_pos C with hz | hz
  · subst hz
    simp only [not_true_eq_false, if_false, zero_mul, roundF64_zero]
  · have hne : C ≠ 0 := by omega
    simp only [hne, not_false_eq_true, if_true]
    have e1 : C * 10 ^ (-2 : Int).toNat = C := by simp
    have e2 : 10 ^ (-(-2 : Int)).toNat = 100 := by decide
    rw [e1, e2]
    obtain ⟨m, e, hr, _, _⟩ := roundF64_cents C hz hClt
    rw [hr]

theorem Sscanf_plain (s : String) (h : isPlainAmount s = true) :
    Sscanf s = some (roundF64 false (decimalCents s) 100) ∧ decimalCents s < 1000000000000000 := by
  obtain ⟨c0, ds, a, b, hs, h0, hds, hlen, ha, hb⟩ := plain_decomp s h
  obtain ⟨hcents, hlt⟩ := decimalCents_plain s c0 ds a b hs h0 hds hlen ha hb
  obtain ⟨C, hC, hpf⟩ := ParseFloat_plain c0 ds a b h0 hds hlen ha hb
  rw [← hC] at hcents
  refine ⟨?_, hlt⟩
  rw [hcents]
  have hmem := digit_mem c0 h0
  have hsp : fmtIsSpace c0 = false := by
    revert hmem
    generalize c0 = x
    revert x
    decide
  have hr : c0 ≠ '\r' := digit_ne c0 h0 _ (by decide)
  have hn : c0 ≠ '\n' := digit_ne c0 h0 _ (by decide)
  have hskip : SkipSpace (c0 :: ds ++ ['.', a, b]) = some (c0 :: ds ++ ['.', a, b]) := by
    rw [List.cons_append]
    unfold SkipSpace
    rw [if_neg (fun h => hr h.1), if_neg hn, if_pos (by rw [hsp]; decide)]
  have htake : (c0 :: ds ++ ['.', a, b]).take hugeWid = c0 :: ds ++ ['.', a, b] := by
    apply List.take_of_length_le
    simp [hugeWid]
    omega
  have hp : (c0 :: ds ++ ['.', a, b]).contains 'p' = false := by
    have hnp : isDecDigit 'p' = false := by decide
    have hnotmem : 'p' ∉ c0 :: ds ++ ['.', a, b] := by
      intro hmem
      simp only [List.cons_append, List.mem_cons, List.mem_append, List.not_mem_nil,
        or_false] at hmem
      rcases hmem with h | h | h | h | h
      · rw [← h, hnp] at h0; cases h0
      · have := hds _ h
        rw [hnp] at this; cases this
      · exact absurd h (by decide)
      · rw [← h, hnp] at ha; cases ha
      · rw [← h, hnp] at hb; cases hb
    rw [Bool.eq_false_iff]
    intro hc
    exact hnotmem (List.mem_of_elem_eq_true hc)
  unfold Sscanf
  rw [hs, htake, hskip]
  simp only [List.cons_append]
  rw [← List.cons_append, floatToken_plain c0 ds a b h0 hds ha hb]
  unfold convertFloat
  rw [hp]
  simp only [Bool.false_eq_true, false_and, if_false]
  exact hpf


theorem parsePrice_plain (s : String) (h : isPlainAmount s = true) :
    parsePrice s = (roundF64 false (decimalCents s) 100, false) := by
  unfold parsePrice
  rw [(Sscanf_plain s h).1]

/-- On a plain amount, `int(math.Ceil(price * 0.2))` is the exact ceiling of
a fifth of the amount. -/
theorem itemPoints_plain (conv : F64 → Int) (item : Item) (h : isPlainAmount item.Price = true) :
    itemPoints conv item = (((decimalCents item.Price + 499) / 500 : Nat) : Int) := by
  unfold itemPoints
  simp only
  rw [parsePrice_plain _ h]
  exact bonus_plain conv _ (Sscanf_plain _ h).2

/-- On a plain amount whose number of cents does not leave the remainder 1,
`isMultipleOfQuarter` decides the divisibility of the cents by 25. -/
theorem isMultipleOfQuarter_plain (conv : F64 → Int) (total : String)
    (h : isPlainAmount total = true) (h1 : decimalCents total % 25 ≠ 1) :
    isMultipleOfQuarter conv total = decide (decimalCents total % 25 = 0) := by
  unfold isMultipleOfQuarter
  simp only
  rw [remInt_eq_zero_iff, parsePrice_plain _ h]
  have := cents_plain conv (decimalCents total) (Sscanf_plain _ h).2 h1
  rw [Bool.eq_iff_iff]
  simp only [decide_eq_true_eq]
  exact this

/-! ## Lemmas on `strings.TrimSpace` -/

theorem dropWhile_append_left (p : Char → Bool) (pre l : List Char)
    (h : ∀ c ∈ pre, p c = true) : (pre ++ l).dropWhile p = l.dropWhile p := by
  induction pre with
  | nil => rfl
  | cons a pre ih =>
    have ha : p a = true := h a (List.mem_cons_self a pre)
    rw [List.cons_append, List.dropWhile_cons, if_pos ha]
    exact ih (fun c hc => h c (List.mem_cons_of_mem a hc))

theorem dropWhile_all (p : Char → Bool) (l : List Char) (h : ∀ c ∈ l, p c = true) :
    l.dropWhile p = [] := by
  have := dropWhile_append_left p l [] h
  rwa [List.append_nil] at this

theorem dropWhile_append_right (p : Char → Bool) (l post : List Char)
    (h : ∀ c ∈ post, p c = true) :
    ((l ++ post).dropWhile p).reverse.dropWhile p = (l.dropWhile p).reverse.dropWhile p := by
  induction l with
  | nil =>
    rw [List.nil_append, dropWhile_all p post h]
    rfl
  | cons a l ih =>
    rw [List.cons_append, List.dropWhile_cons, List.dropWhile_cons]
    by_cases ha : p a = true
    · rw [if_pos ha, if_pos ha]; exact ih
    · rw [if_neg ha, if_neg ha, ← List.cons_append, List.reverse_append]
      exact dropWhile_append_left p post.reverse (a :: l).reverse
        (fun c hc => h c (List.mem_reverse.mp hc))

theorem TrimSpace_padded (a b : Item) (h : paddedItem a b) :
    TrimSpace b.ShortDescription = TrimSpace a.ShortDescription := by
  obtain ⟨_, pre, post, hpre, hpost, hd⟩ := h
  unfold TrimSpace
  rw [hd, List.append_assoc, dropWhile_append_left unicodeIsSpace pre _ hpre,
    dropWhile_append_right unicodeIsSpace _ post hpost]

theorem paddedItem_same_bonus (conv : F64 → Int) (a b : Item)
    (h : paddedItem a b ∨ paddedItem b a) :
    eligible b = eligible a ∧ itemPoints conv b = itemPoints conv a := by
  have key : ∀ x y : Item, paddedItem x y →
      eligible y = eligible x ∧ itemPoints conv y = itemPoints conv x := by
    intro x y hxy
    constructor
    · unfold eligible; rw [TrimSpace_padded x y hxy]
    · unfold itemPoints; rw [hxy.1]
  rcases h with h | h
  · exact key a b h
  · exact ⟨(key b a h).1.symm, (key b a h).2.symm⟩

theorem padded_items_same_sum (conv : F64 → Int) (items items2 : List Item)
    (h : List.Forall₂ (fun a b => paddedItem a b ∨ paddedItem b a) items items2) :
    items2.length = items.length ∧
    (items2.filter eligible).map (itemPoints conv) = (items.filter eligible).map (itemPoints conv) := by
  induction h with
  | nil => exact ⟨rfl, rfl⟩
  | @cons a b l1 l2 hab _ ih =>
    obtain ⟨he, hp⟩ := paddedItem_same_bonus conv a b hab
    refine ⟨by simp [ih.1], ?_⟩
    rw [List.filter_cons, List.filter_cons, he]
    cases hea : eligible a
    · simpa using ih.2
    · simp only [if_true, List.map_cons, hp, ih.2]

/-! ## Lemmas on the handlers -/

theorem Split_no_slash (l : List Char) (h : '/' ∉ l) : Split l = [l] := by
  induction l with
  | nil => rfl
  | cons c l ih =>
    have hc : c ≠ '/' := fun e => h (e ▸ List.mem_cons_self c l)
    have hl : '/' ∉ l := fun e => h (List.mem_cons_of_mem c e)
    unfold Split
    rw [if_neg hc, ih hl]

theorem Split_append_slash (l rest : List Char) (h : '/' ∉ l) :
    Split (l ++ '/' :: rest) = l :: Split rest := by
  induction l with
  | nil =>
    rw [List.nil_append]
    conv => lhs; unfold Split
    rw [if_pos rfl]
  | cons c l ih =>
    have hc : c ≠ '/' := fun e => h (e ▸ List.mem_cons_self c l)
    have hl : '/' ∉ l := fun e => h (List.mem_cons_of_mem c e)
    rw [List.cons_append]
    conv => lhs; unfold Split
    rw [if_neg hc, ih hl]

theorem Split_receipts_path (id rest : List Char) (h : '/' ∉ id) :
    Split ("/receipts/".data ++ id ++ '/' :: rest) = [] :: "receipts".data :: id :: Split rest := by
  have h1 : "/receipts/".data ++ id ++ '/' :: rest
      = [] ++ '/' :: ("receipts".data ++ '/' :: (id ++ '/' :: rest)) := by
    simp
  rw [h1, Split_append_slash [] _ (by simp), Split_append_slash "receipts".data _ (by decide),
    Split_append_slash id rest h]

theorem Split_ne_nil (l : List Char) : Split l ≠ [] := by
  cases l with
  | nil => simp [Split]
  | cons c l =>
    unfold Split
    split_ifs
    · simp
    · split <;> simp

theorem getPoints_eq (receipts : Store) (r : Request) :
    getPoints receipts r =
      if r.Method ≠ "GET" then (receipts, ⟨405, ResponseBody.text "Invalid request method"⟩)
      else if (Split r.Path.data).length < 3 ∨
          (Split r.Path.data).get? 1 ≠ some "receipts".data then
        (receipts, ⟨400, ResponseBody.text "Invalid URL path"⟩)
      else match receipts ⟨(Split r.Path.data).getD 2 []⟩ with
        | none => (receipts, ⟨404, ResponseBody.text "Receipt not found"⟩)
        | some receipt => (receipts, ⟨200, ResponseBody.pointsJSON receipt.Points⟩) := rfl

theorem getPoints_store (receipts : Store) (r : Request) : (getPoints receipts r).1 = receipts := by
  rw [getPoints_eq]
  split_ifs
  · rfl
  · rfl
  · split <;> rfl

theorem getPoints_receipts_path (receipts : Store) (g : Request) (id rest : String)
    (hm : g.Method = "GET") (hp : g.Path = "/receipts/" ++ id ++ "/" ++ rest)
    (hid : '/' ∉ id.data) :
    getPoints receipts g =
      match receipts id with
      | none => (receipts, ⟨404, ResponseBody.text "Receipt not found"⟩)
      | some receipt => (receipts, ⟨200, ResponseBody.pointsJSON receipt.Points⟩) := by
  have hs : Split g.Path.data = [] :: "receipts".data :: id.data :: Split rest.data := by
    rw [hp]
    simp only [String.data_append]
    have : "/".data ++ rest.data = '/' :: rest.data := rfl
    rw [List.append_assoc, this]
    exact Split_receipts_path id.data rest.data hid
  rw [getPoints_eq, if_neg (by rw [hm]; decide), hs, if_neg (by simp)]
  rfl

theorem getPoints_score_only_if_stored (receipts : Store) (g : Request) (p : Int)
    (h : (getPoints receipts g).2 = ⟨200, ResponseBody.pointsJSON p⟩) :
    ∃ r, receipts ⟨(Split g.Path.data).getD 2 []⟩ = some r ∧ r.Points = p := by
  rw [getPoints_eq] at h
  split_ifs at h
  · cases h
  · cases h
  · split at h
    · cases h
    · rename_i receipt hk
      simp only [Response.mk.injEq, ResponseBody.pointsJSON.injEq, true_and] at h
      exact ⟨receipt, hk, h⟩

theorem processReceipt_rejected (conv : F64 → Int) (newID : String) (receipts : Store)
    (r : Request) (h : r.Method ≠ "POST" ∨ ∃ err, r.Body = Except.error err) :
    (processReceipt conv newID receipts r).1 = receipts := by
  unfold processReceipt
  by_cases hm : r.Method ≠ "POST"
  · rw [if_pos hm]
  · rw [if_neg hm]
    rcases h with h | ⟨err, he⟩
    · exact absurd h hm
    · rw [he]

theorem processReceipt_accepted (conv : F64 → Int) (newID : String) (receipts : Store)
    (r : Request) (receipt : Receipt) (hm : r.Method = "POST") (hb : r.Body = Except.ok receipt) :
    processReceipt conv newID receipts r =
      (fun k => if k = newID then
          some { receipt with ID := newID,
                              Points := calculatePoints conv { receipt with ID := newID } }
        else receipts k,
       ⟨200, ResponseBody.idJSON newID⟩) := by
  unfold processReceipt
  rw [if_neg (by rw [hm]; decide), hb]

theorem processReceipt_invariant (conv : F64 → Int) (newID : String) (receipts : Store)
    (r : Request) (h : StoreInvariant conv receipts) :
    StoreInvariant conv (processReceipt conv newID receipts r).1 := by
  by_cases hm : r.Method = "POST"
  · cases hb : r.Body with
    | error err =>
      rw [processReceipt_rejected conv newID receipts r (Or.inr ⟨err, hb⟩)]
      exact h
    | ok receipt =>
      rw [processReceipt_accepted conv newID receipts r receipt hm hb]
      intro k x hk
      simp only at hk
      by_cases hkid : k = newID
      · rw [if_pos hkid, Option.some.injEq] at hk
        subst hk
        exact ⟨hkid.symm, rfl⟩
      · rw [if_neg hkid] at hk
        exact h k x hk
  · rw [processReceipt_rejected conv newID receipts r (Or.inl hm)]
    exact h

theorem uuid_no_slash (s : String) (h : isUUIDString s = true) : '/' ∉ s.data := by
  unfold isUUIDString at h
  simp only [decide_eq_true_eq] at h
  obtain ⟨_, hall⟩ := h
  intro hmem
  obtain ⟨n, hn⟩ := List.mem_iff_get?.mp hmem
  have hlt : n < 36 := by
    obtain ⟨hlt, _⟩ := List.get?_eq_some.mp hn
    omega
  have := hall ⟨n, hlt⟩ '/' hn
  split_ifs at this
  · exact absurd this (by decide)
  · exact absurd this (by decide)

/-! ## Lemmas on the exact sum -/

theorem utf8Size_ascii (c : Char) (h : c.toNat < 128) : c.utf8Size = 1 := by
  unfold Char.utf8Size
  simp only
  have : c.val ≤ UInt32.ofNatCore 127 (by decide) := by
    rw [UInt32.le_def]
    show c.val.toNat ≤ 127
    have : c.toNat = c.val.toNat := rfl
    omega
  rw [if_pos this]

theorem utf8ByteSize_go_ascii (l : List Char) (h : ∀ c ∈ l, c.toNat < 128) :
    String.utf8ByteSize.go l = l.length := by
  induction l with
  | nil => rfl
  | cons c cs ih =>
    rw [String.utf8ByteSize.go, ih (fun x hx => h x (List.mem_cons_of_mem _ hx)),
      utf8Size_ascii c (h c (List.mem_cons_self _ _)), List.length_cons]

theorem TrimSpace_subset (s : String) (c : Char) (h : c ∈ (TrimSpace s).data) : c ∈ s.data := by
  unfold TrimSpace at h
  simp only [List.mem_reverse] at h
  have h1 := (List.dropWhile_suffix unicodeIsSpace).subset h
  rw [List.mem_reverse] at h1
  exact (List.dropWhile_suffix unicodeIsSpace).subset h1

theorem len_TrimSpace_ascii (s : String) (h : isASCII s = true) :
    len (TrimSpace s) = (TrimSpace s).length := by
  unfold isASCII at h
  simp only [List.all_eq_true, decide_eq_true_eq] at h
  unfold len String.utf8ByteSize
  exact utf8ByteSize_go_ascii _ (fun c hc => h c (TrimSpace_subset s c hc))

theorem eligible_eq_charEligible (item : Item) (h : isASCII item.ShortDescription = true) :
    eligible item = charEligible item := by
  unfold eligible charEligible
  rw [len_TrimSpace_ascii _ h]

theorem exactBonus_eq_ceil (price : String) :
    ((exactBonus price : Nat) : Int) = ⌈(decimalCents price : ℚ) / 100 * (1 / 5)⌉ := by
  have h : (decimalCents price : ℚ) / 100 * (1 / 5) = (decimalCents price : ℚ) / ((500 : Nat) : ℚ) := by
    push_cast; ring
  rw [h, ceil_nat_div _ 500 (by norm_num)]
  unfold exactBonus
  congr 1
  split_ifs <;> omega

theorem itemPoints_plain_bounds (conv : F64 → Int) (item : Item)
    (h : isPlainAmount item.Price = true) :
    itemPoints conv item = (exactBonus item.Price : Int) ∧ 0 ≤ itemPoints conv item ∧
      itemPoints conv item ≤ 2000000000000 := by
  have h1 := itemPoints_plain conv item h
  have h2 := (Sscanf_plain _ h).2
  rw [h1]
  unfold exactBonus
  refine ⟨rfl, Int.natCast_nonneg _, ?_⟩
  have : (decimalCents item.Price + 499) / 500 ≤ 2000000000000 := by omega
  exact_mod_cast this

theorem bonus_sum_exact (conv : F64 → Int) (items : List Item)
    (hdesc : ∀ item ∈ items, isASCII item.ShortDescription = true)
    (hprices : ∀ item ∈ items, charEligible item = true → isPlainAmount item.Price = true) :
    ((items.filter eligible).map (itemPoints conv)).sum
      = ((items.filter charEligible).map (fun item => (exactBonus item.Price : Int))).sum := by
  induction items with
  | nil => rfl
  | cons it its ih =>
    have ih1 := ih (fun x hx => hdesc x (List.mem_cons_of_mem _ hx))
      (fun x hx => hprices x (List.mem_cons_of_mem _ hx))
    have he := eligible_eq_charEligible it (hdesc it (List.mem_cons_self _ _))
    rw [List.filter_cons, List.filter_cons, he]
    by_cases hc : charEligible it = true
    · rw [if_pos hc, if_pos hc, List.map_cons, List.map_cons, List.sum_cons, List.sum_cons, ih1,
        (itemPoints_plain_bounds conv it (hprices it (List.mem_cons_self _ _) hc)).1]
    · rw [if_neg hc, if_neg hc, ih1]

/-- On receipts written with plain amounts and ASCII descriptions the
contributions that the program computes are the exact ones. -/
theorem ruleSum_eq_exact (conv : F64 → Int) (receipt : Receipt)
    (htotal : isPlainAmount receipt.Total = true)
    (hcents : decimalCents receipt.Total % 25 ≠ 1)
    (hdesc : ∀ item ∈ receipt.Items, isASCII item.ShortDescription = true)
    (hprices : ∀ item ∈ receipt.Items, charEligible item = true →
      isPlainAmount item.Price = true) :
    ruleSum conv receipt = exactRuleSum receipt := by
  unfold ruleSum exactRuleSum
  rw [bonus_sum_exact conv receipt.Items hdesc hprices]
  have hq : ((25 : Int) ∣ cents conv receipt.Total) ↔ decimalCents receipt.Total % 25 = 0 := by
    unfold cents
    rw [parsePrice_plain _ htotal]
    exact cents_plain conv _ (Sscanf_plain _ htotal).2 hcents
  by_cases h25 : decimalCents receipt.Total % 25 = 0
  · rw [if_pos (hq.mpr h25), if_pos h25]
  · rw [if_neg (fun h => h25 (hq.mp h)), if_neg h25]

theorem sum_natCast_nonneg (l : List Item) (f : Item → Nat) :
    0 ≤ (l.map (fun item => (f item : Int))).sum := by
  apply sum_nonneg_of_forall
  intro x hx
  obtain ⟨it, _, rfl⟩ := List.mem_map.mp hx
  exact Int.natCast_nonneg _

theorem exactRuleSum_nonneg (receipt : Receipt) : 0 ≤ exactRuleSum receipt := by
  unfold exactRuleSum
  have h1 : (0 : Int) ≤ (alnumCount receipt.Retailer : Int) := Int.natCast_nonneg _
  have h4 : (0 : Int) ≤ ((receipt.Items.length / 2 : Nat) : Int) := Int.natCast_nonneg _
  have h5 := sum_natCast_nonneg (receipt.Items.filter charEligible) (fun item => exactBonus item.Price)
  split_ifs <;> omega

theorem sum_le_of_forall (l : List Int) (B : Int) (h : ∀ x ∈ l, x ≤ B) :
    l.sum ≤ (l.length : Int) * B := by
  induction l with
  | nil => simp
  | cons a as ih =>
    rw [List.sum_cons, List.length_cons]
    have h1 := h a (List.mem_cons_self a as)
    have h2 := ih (fun x hx => h x (List.mem_cons_of_mem a hx))
    push_cast
    linarith

/-- With plain item prices the sum of the contributions is bounded by the
sizes of the retailer name and of the item list. -/
theorem ruleSum_bounds (conv : F64 → Int) (receipt : Receipt)
    (hprices : ∀ item ∈ receipt.Items, isPlainAmount item.Price = true) :
    0 ≤ ruleSum conv receipt ∧
    ruleSum conv receipt ≤ (receipt.Retailer.length : Int)
      + 2000000000003 * (receipt.Items.length : Int) + 91 := by
  constructor
  · exact ruleSum_nonneg conv receipt
      (fun item hmem _ => (itemPoints_plain_bounds conv item (hprices item hmem)).2.1)
  · unfold ruleSum
    have h1 : (alnumCount receipt.Retailer : Int) ≤ (receipt.Retailer.length : Int) := by
      have : alnumCount receipt.Retailer ≤ receipt.Retailer.length := List.length_filter_le _ _
      exact_mod_cast this
    have h4 : 5 * ((receipt.Items.length / 2 : Nat) : Int) ≤ 3 * (receipt.Items.length : Int) := by
      have : 5 * (receipt.Items.length / 2) ≤ 3 * receipt.Items.length := by omega
      exact_mod_cast this
    have h5 : ((receipt.Items.filter eligible).map (itemPoints conv)).sum
        ≤ 2000000000000 * (receipt.Items.length : Int) := by
      have hs := sum_le_of_forall ((receipt.Items.filter eligible).map (itemPoints conv))
        2000000000000 (by
          intro x hx
          obtain ⟨it, hit, rfl⟩ := List.mem_map.mp hx
          exact (itemPoints_plain_bounds conv it (hprices it (List.mem_filter.mp hit).1)).2.2)
      rw [List.length_map] at hs
      have hl : ((receipt.Items.filter eligible).length : Int) ≤ (receipt.Items.length : Int) := by
        have : (receipt.Items.filter eligible).length ≤ receipt.Items.length :=
          List.length_filter_le _ _
        exact_mod_cast this
      linarith
    split_ifs <;> linarith

/-! ## C1 -/

/-- C1, as stated, fails: the score is a 64-bit `int`, and the cents of the
total are computed in binary floating point.  The receipt `largePricesReceipt`
(total "0.00", two items "abc" at "40000000000000000000.00") has the exact sum
`50 + 25 + 5 + 2 * 8 * 10^18 = 16000000000000000080` and scores
`-2446744073709551536`; the receipt with the total "2.01" and nothing else has
the exact sum 0 and scores 25. -/
theorem calculatePoints_differs_from_exact_sum :
    exactRuleSum largePricesReceipt = 16000000000000000080 ∧
    calculatePoints convAmd64 largePricesReceipt = -2446744073709551536 ∧
    exactRuleSum twoDollarsOneCent = 0 ∧
    calculatePoints convAmd64 twoDollarsOneCent = 25 := by
  set_option maxRecDepth 10000 in decide

/-- C1, amended: for every receipt whose total is written as one to thirteen
digits, '.', two digits, with an amount in cents that does not leave the
remainder 1 modulo 25, whose item descriptions are ASCII, whose items with a
trimmed description length that is a multiple of 3 have prices written in the
same way, and for which the following sum is at most `2^63 - 1`,
`calculatePoints` equals the sum of the seven rule contributions computed
independently, in exact arithmetic: the number of ASCII letters and digits of
the retailer, 50 if the total ends in ".00", 25 if the total in integer cents
is divisible by 25, `5 * (itemCount / 2)`, the sum of `ceiling(price * 0.2)`
over the items whose trimmed description length is a multiple of 3, 6 if the
purchase date is a valid calendar date with an odd day, and 10 if the purchase
time is an `HH:MM` text with the hour 14.  The three receipts of the test
score 28, 109 and 19. -/
theorem calculatePoints_eq_exact_sum (conv : F64 → Int) (receipt : Receipt)
    (htotal : isPlainAmount receipt.Total = true)
    (hcents : decimalCents receipt.Total % 25 ≠ 1)
    (hdesc : ∀ item ∈ receipt.Items, isASCII item.ShortDescription = true)
    (hprices : ∀ item ∈ receipt.Items, charEligible item = true →
      isPlainAmount item.Price = true)
    (hfit : exactRuleSum receipt ≤ 9223372036854775807) :
    calculatePoints conv receipt = exactRuleSum receipt ∧
    (∀ price : String,
      ((exactBonus price : Nat) : Int) = ⌈(decimalCents price : ℚ) / 100 * (1 / 5)⌉) ∧
    (isOddDay receipt.PurchaseDate = true ↔
      ∃ y m d, receipt.PurchaseDate = isoDate y m d ∧ validDate y m d ∧ d % 2 = 1) ∧
    (isInAfternoonRange receipt.PurchaseTime = true ↔
      ∃ m, m < 60 ∧ receipt.PurchaseTime = clockTime 14 m) ∧
    calculatePoints conv receipt1 = 28 ∧ exactRuleSum receipt1 = 28 ∧
    calculatePoints conv receipt2 = 109 ∧ exactRuleSum receipt2 = 109 ∧
    calculatePoints conv receipt3 = 19 ∧ exactRuleSum receipt3 = 19 := by
  have h0 := exactRuleSum_nonneg receipt
  have he := ruleSum_eq_exact conv receipt htotal hcents hdesc hprices
  refine ⟨?_, exactBonus_eq_ceil, isOddDay_iff _, isInAfternoonRange_iff _, ?_, ?_, ?_, ?_, ?_, ?_⟩
  · rw [calculatePoints_eq_wrap, he]
    exact wrapInt_of_inRange _ (by omega) hfit
  · set_option maxRecDepth 10000 in rfl
  · set_option maxRecDepth 10000 in decide
  · set_option maxRecDepth 10000 in rfl
  · set_option maxRecDepth 10000 in decide
  · set_option maxRecDepth 10000 in rfl
  · set_option maxRecDepth 10000 in decide

/-- The amended C1 applies to the first receipt of the test. -/
theorem calculatePoints_eq_exact_sum_witness :
    isPlainAmount receipt1.Total = true ∧ decimalCents receipt1.Total % 25 ≠ 1 ∧
    (∀ item ∈ receipt1.Items, isASCII item.ShortDescription = true) ∧
    (∀ item ∈ receipt1.Items, charEligible item = true → isPlainAmount item.Price = true) ∧
    exactRuleSum receipt1 ≤ 9223372036854775807 ∧
    calculatePoints convAmd64 receipt1 = exactRuleSum receipt1 :=
  ⟨by decide, by decide,
   by set_option maxRecDepth 10000 in decide,
   by set_option maxRecDepth 10000 in decide,
   by set_option maxRecDepth 10000 in decide,
   (calculatePoints_eq_exact_sum convAmd64 receipt1 (by decide) (by decide)
     (by set_option maxRecDepth 10000 in decide)
     (by set_option maxRecDepth 10000 in decide)
     (by set_option maxRecDepth 10000 in decide)).1⟩

/-! ## C2 -/

/-- C2, as stated, fails: a receipt whose only item has the price "-1000.00"
and an eligible description scores `-175`.  A score is also negative when the
sum leaves the range of `int`: two items at "40000000000000000000" contribute
`8 * 10^18` each and the receipt scores `-2446744073709551586`.  (Every
conversion `int(...)` stays in range here, so the platform plays no part.) -/
theorem calculatePoints_negative_price :
    calculatePoints convAmd64 negativePriceReceipt = -175 ∧
    ¬ (0 ≤ calculatePoints convAmd64 negativePriceReceipt) ∧
    itemPoints convAmd64 ⟨"abc", "40000000000000000000"⟩ = 8000000000000000000 ∧
    calculatePoints convAmd64 overflowReceipt = -2446744073709551586 := by
  set_option maxRecDepth 10000 in decide

/-- C2, amended: for all receipts (any retailer of at most `10^18` characters,
any date, time and total, any descriptions) with at most 1000000 items, each
with a price written as one to thirteen digits, '.', two digits,
`calculatePoints` is not negative. -/
theorem calculatePoints_nonneg (conv : F64 → Int) (receipt : Receipt)
    (hprices : ∀ item ∈ receipt.Items, isPlainAmount item.Price = true)
    (hitems : receipt.Items.length ≤ 1000000)
    (hretailer : receipt.Retailer.length ≤ 1000000000000000000) :
    0 ≤ calculatePoints conv receipt := by
  obtain ⟨h0, h1⟩ := ruleSum_bounds conv receipt hprices
  have hi : (receipt.Items.length : Int) ≤ 1000000 := by exact_mod_cast hitems
  have hr : (receipt.Retailer.length : Int) ≤ 1000000000000000000 := by exact_mod_cast hretailer
  rw [calculatePoints_eq_wrap, wrapInt_of_inRange _ (by omega) (by omega)]
  exact h0

/-- The amended C2 applies to the first receipt of the test. -/
theorem calculatePoints_nonneg_witness :
    (∀ item ∈ receipt1.Items, isPlainAmount item.Price = true) ∧
    receipt1.Items.length ≤ 1000000 ∧
    receipt1.Retailer.length ≤ 1000000000000000000 ∧
    0 ≤ calculatePoints convAmd64 receipt1 :=
  ⟨by decide, by decide, by decide,
   calculatePoints_nonneg convAmd64 receipt1 (by decide) (by decide) (by decide)⟩

/-! ## C3 -/

/-- C3 does not hold of the code: the length test is `len(desc)`, the number
of bytes, not of characters.  The trimmed description of `twoCharItem` has 2
characters (3 bytes) and the item earns `ceil(5.00 * 0.2) = 1` where the claim
gives 0; that of `threeCharItem` has 3 characters (4 bytes) and the item earns
nothing where the claim gives 1. -/
theorem descriptionLength_counts_bytes :
    (TrimSpace twoCharItem.ShortDescription).length = 2 ∧
    itemDescriptionPoints convAmd64 [twoCharItem] = 1 ∧
    (TrimSpace threeCharItem.ShortDescription).length = 3 ∧
    itemPoints convAmd64 threeCharItem = 1 ∧
    itemDescriptionPoints convAmd64 [threeCharItem] = 0 := by
  set_option maxRecDepth 10000 in decide

/-! ## C4 -/

/-- C4 does not hold of the code: for the total "2.01" the product
`price * 100` is the binary64 value just below 201, `int(...)` is 200, and
`isMultipleOfQuarter` is true although the cents component 01 is not
divisible by 25; a receipt with this total and nothing else scores 25. -/
theorem isMultipleOfQuarter_two_dollars_one_cent (conv : F64 → Int) :
    cents conv "2.01" = 200 ∧ isMultipleOfQuarter conv "2.01" = true ∧
    calculatePoints conv twoDollarsOneCent = 25 :=
  ⟨rfl, rfl, rfl⟩

/-! ## C5 -/

/-- C5: the round-dollar rule awards 50 points exactly when the total string
literally ends with the suffix ".00" and 0 otherwise; the numerically round
totals "10.0" and "10" earn nothing.  (The score is the sum, in `int`
arithmetic, of the amounts of the seven rules; `roundDollarPoints` is that of
rule 2.) -/
theorem roundDollarPoints_literal_suffix (conv : F64 → Int) (receipt : Receipt)
    (total : String) :
    calculatePoints conv receipt = wrapInt (retailerPoints receipt.Retailer
      + roundDollarPoints receipt.Total + quarterPoints conv receipt.Total
      + itemPairPoints receipt.Items + itemDescriptionPoints conv receipt.Items
      + oddDayPoints receipt.PurchaseDate + afternoonPoints receipt.PurchaseTime) ∧
    (isRoundDollar total = true ↔ ∃ p : String, total = p ++ ".00") ∧
    roundDollarPoints total = (if ".00".data <:+ total.data then 50 else 0) ∧
    roundDollarPoints "10.0" = 0 ∧ roundDollarPoints "10" = 0 ∧ roundDollarPoints "9.00" = 50 := by
  have hs : isRoundDollar total = true ↔ ".00".data <:+ total.data := HasSuffix_iff total ".00"
  refine ⟨calculatePoints_eq_contributions conv receipt, ?_, ?_, by decide, by decide,
    by decide⟩
  · rw [hs]
    constructor
    · rintro ⟨t, ht⟩
      exact ⟨⟨t⟩, by apply String.ext; simp [← ht]⟩
    · rintro ⟨p, rfl⟩
      exact ⟨p.data, by simp⟩
  · unfold roundDollarPoints
    by_cases h : ".00".data <:+ total.data
    · rw [if_pos (hs.mpr h), if_pos h]
    · rw [if_neg (fun h1 => h (hs.mp h1)), if_neg h]

/-! ## C6 -/

/-- C6 does not hold of the code: the total "360287970189641.00" ends in
".00", but `price * 100` is not a binary64 value; it is rounded to
36028797018964096, which is not divisible by 25, so the quarter rule does not
fire; a receipt with this total and nothing else scores 50 instead of 75. -/
theorem round_total_without_quarter_bonus (conv : F64 → Int) :
    isRoundDollar "360287970189641.00" = true ∧
    cents conv "360287970189641.00" = 36028797018964096 ∧
    isMultipleOfQuarter conv "360287970189641.00" = false ∧
    calculatePoints conv largeRoundTotal = 50 :=
  ⟨by decide, rfl, rfl, rfl⟩

/-! ## C7 -/

/-- C7: the retailer rule contributes the number of code points of the
retailer string that are ASCII letters or digits; spaces, punctuation and
non-ASCII characters contribute nothing.  "M&M Corner Market" contributes 14.
(The score is the sum, in `int` arithmetic, of the amounts of the seven rules;
`retailerPoints` is that of rule 1.) -/
theorem retailerPoints_counts_ascii_alphanumerics (conv : F64 → Int) (receipt : Receipt)
    (retailer : String) :
    calculatePoints conv receipt = wrapInt (retailerPoints receipt.Retailer
      + roundDollarPoints receipt.Total + quarterPoints conv receipt.Total
      + itemPairPoints receipt.Items + itemDescriptionPoints conv receipt.Items
      + oddDayPoints receipt.PurchaseDate + afternoonPoints receipt.PurchaseTime) ∧
    retailerPoints retailer = ((retailer.data.filter Char.isAlphanum).length : Int) ∧
    (∀ c : Char, c.isAlphanum = true ↔
      (97 ≤ c.toNat ∧ c.toNat ≤ 122) ∨ (65 ≤ c.toNat ∧ c.toNat ≤ 90) ∨
        (48 ≤ c.toNat ∧ c.toNat ≤ 57)) ∧
    retailerPoints "M&M Corner Market" = 14 ∧
    retailerPoints "Caf\u00e9 \u6771\u4eac 24" = 5 := by
  refine ⟨calculatePoints_eq_contributions conv receipt, retailerPoints_eq retailer, ?_,
    by decide, by decide⟩
  intro c
  unfold Char.isAlphanum Char.isAlpha Char.isUpper Char.isLower Char.isDigit Char.toNat
  simp only [Bool.or_eq_true, Bool.and_eq_true, decide_eq_true_eq, UInt32.le_def,
    Fin.le_def, UInt32.toNat]
  constructor
  · rintro ((⟨h1, h2⟩ | ⟨h1, h2⟩) | ⟨h1, h2⟩)
    · right; left; exact ⟨h1, h2⟩
    · left; exact ⟨h1, h2⟩
    · right; right; exact ⟨h1, h2⟩
  · rintro (⟨h1, h2⟩ | ⟨h1, h2⟩ | ⟨h1, h2⟩)
    · left; right; exact ⟨h1, h2⟩
    · left; left; exact ⟨h1, h2⟩
    · right; exact ⟨h1, h2⟩

/-! ## C8 -/

/-- C8: a receipt with `n` items earns `5 * floor(n / 2)` points from the
item-pair rule, so an odd remainder item earns nothing; 4 items earn 10, and 0
or 1 items earn 0.  (The score is the sum, in `int` arithmetic, of the amounts
of the seven rules; `itemPairPoints` is that of rule 4.) -/
theorem itemPairPoints_five_per_pair (conv : F64 → Int) (receipt : Receipt)
    (items : List Item) (a b : Item) :
    calculatePoints conv receipt = wrapInt (retailerPoints receipt.Retailer
      + roundDollarPoints receipt.Total + quarterPoints conv receipt.Total
      + itemPairPoints receipt.Items + itemDescriptionPoints conv receipt.Items
      + oddDayPoints receipt.PurchaseDate + afternoonPoints receipt.PurchaseTime) ∧
    itemPairPoints items = 5 * (⌊(items.length : ℚ) / 2⌋₊ : Int) ∧
    itemPairPoints (a :: b :: items) = itemPairPoints items + 5 ∧
    itemPairPoints receipt2.Items = 10 ∧
    itemPairPoints [] = 0 ∧ itemPairPoints [a] = 0 := by
  refine ⟨calculatePoints_eq_contributions conv receipt, ?_, ?_, by decide, by decide,
    by simp [itemPairPoints]⟩
  · unfold itemPairPoints
    have h := Nat.floor_div_eq_div (α := ℚ) items.length 2
    rw [show ((2 : ℕ) : ℚ) = 2 by norm_num] at h
    rw [h]; ring
  · unfold itemPairPoints
    simp only [List.length_cons]
    have : (items.length + 1 + 1) / 2 = items.length / 2 + 1 := by omega
    rw [this]; push_cast; ring

/-! ## C9 -/

/-- C9: the odd-day rule contributes 6 if the purchase date is the `YYYY-MM-DD`
text of a valid calendar date whose day of the month is odd, and 0 otherwise;
a string of another shape and an impossible date (month 13, February 31)
contribute 0, and no input raises an error (the function is total).  (The
score is the sum, in `int` arithmetic, of the amounts of the seven rules;
`oddDayPoints` is that of rule 6.) -/
theorem oddDayPoints_valid_odd_date (conv : F64 → Int) (receipt : Receipt) (date : String) :
    calculatePoints conv receipt = wrapInt (retailerPoints receipt.Retailer
      + roundDollarPoints receipt.Total + quarterPoints conv receipt.Total
      + itemPairPoints receipt.Items + itemDescriptionPoints conv receipt.Items
      + oddDayPoints receipt.PurchaseDate + afternoonPoints receipt.PurchaseTime) ∧
    (oddDayPoints date = 6 ↔
      ∃ y m d, date = isoDate y m d ∧ validDate y m d ∧ d % 2 = 1) ∧
    (oddDayPoints date = 6 ∨ oddDayPoints date = 0) ∧
    oddDayPoints "2022-01-01" = 6 ∧ oddDayPoints "2022-03-20" = 0 ∧
    oddDayPoints "2022-13-01" = 0 ∧ oddDayPoints "2023-02-31" = 0 ∧
    oddDayPoints "01/15/2022" = 0 ∧ oddDayPoints "" = 0 := by
  refine ⟨calculatePoints_eq_contributions conv receipt, ?_, ?_, by decide, by decide,
    by decide, by decide, by decide, by decide⟩
  · rw [← isOddDay_iff]
    unfold oddDayPoints
    cases isOddDay date <;> simp
  · unfold oddDayPoints
    cases isOddDay date <;> simp

/-! ## C10 -/

/-- C10: the afternoon rule contributes 10 if the purchase time is an `HH:MM`
text whose hour is 14 ("14:00" through "14:59"), and 0 otherwise; "13:01" and
"15:45" contribute 0, and so does a string that does not parse as a time.
(The score is the sum, in `int` arithmetic, of the amounts of the seven rules;
`afternoonPoints` is that of rule 7.) -/
theorem afternoonPoints_hour_fourteen (conv : F64 → Int) (receipt : Receipt)
    (timeStr : String) :
    calculatePoints conv receipt = wrapInt (retailerPoints receipt.Retailer
      + roundDollarPoints receipt.Total + quarterPoints conv receipt.Total
      + itemPairPoints receipt.Items + itemDescriptionPoints conv receipt.Items
      + oddDayPoints receipt.PurchaseDate + afternoonPoints receipt.PurchaseTime) ∧
    (afternoonPoints timeStr = 10 ↔ ∃ m, m < 60 ∧ timeStr = clockTime 14 m) ∧
    (afternoonPoints timeStr = 10 ∨ afternoonPoints timeStr = 0) ∧
    afternoonPoints "14:33" = 10 ∧ afternoonPoints "14:00" = 10 ∧ afternoonPoints "14:59" = 10 ∧
    afternoonPoints "13:01" = 0 ∧ afternoonPoints "15:45" = 0 ∧
    afternoonPoints "14:60" = 0 ∧ afternoonPoints "2:30 PM" = 0 ∧ afternoonPoints "" = 0 := by
  refine ⟨calculatePoints_eq_contributions conv receipt, ?_, ?_, by decide, by decide,
    by decide, by decide, by decide, by decide, by decide, by decide⟩
  · rw [← isInAfternoonRange_iff]
    unfold afternoonPoints
    cases isInAfternoonRange timeStr <;> simp
  · unfold afternoonPoints
    cases isInAfternoonRange timeStr <;> simp

/-! ## C11 -/

/-- C13: the order of the items is irrelevant to the score: a receipt whose
item list is a permutation of that of another receipt, all else equal, gets the
same score. -/
theorem calculatePoints_perm_items (conv : F64 → Int) (receipt : Receipt) (items : List Item)
    (h : receipt.Items.Perm items) :
    calculatePoints conv { receipt with Items := items } = calculatePoints conv receipt := by
  rw [calculatePoints_eq_wrap, calculatePoints_eq_wrap]
  congr 1
  unfold ruleSum
  simp only
  rw [h.length_eq, ((h.filter eligible).map (itemPoints conv)).sum_eq]

/-- C13 applies to the first receipt of the test with its items in reverse order. -/
theorem calculatePoints_perm_items_witness :
    receipt1.Items.Perm receipt1.Items.reverse ∧
    calculatePoints convAmd64 { receipt1 with Items := receipt1.Items.reverse }
      = calculatePoints convAmd64 receipt1 :=
  ⟨(List.reverse_perm receipt1.Items).symm,
   calculatePoints_perm_items convAmd64 receipt1 receipt1.Items.reverse
     (List.reverse_perm receipt1.Items).symm⟩

/-! ## C14 -/

/-- C14: white space in front of and behind an item description is
insignificant: if the items of two receipts correspond one to one, each pair
with the same price and with descriptions that differ only by white space
(`unicode.IsSpace`, the white space that `strings.TrimSpace` removes) added or
removed at the two ends, the receipts get the same score. -/
theorem calculatePoints_description_padding (conv : F64 → Int) (receipt : Receipt)
    (items : List Item)
    (h : List.Forall₂ (fun a b => paddedItem a b ∨ paddedItem b a) receipt.Items items) :
    calculatePoints conv { receipt with Items := items } = calculatePoints conv receipt := by
  obtain ⟨hl, hs⟩ := padded_items_same_sum conv receipt.Items items h
  rw [calculatePoints_eq_wrap, calculatePoints_eq_wrap]
  congr 1
  unfold ruleSum
  simp only
  rw [hl, hs]

/-- C14 applies to the second receipt of the test with the description of its
first item padded to "  Gatorade\t ". -/
theorem calculatePoints_description_padding_witness :
    List.Forall₂ (fun a b => paddedItem a b ∨ paddedItem b a) receipt2.Items
      (⟨"  Gatorade\t ", "2.25"⟩ :: receipt2.Items.tail) ∧
    calculatePoints convAmd64
      { receipt2 with Items := ⟨"  Gatorade\t ", "2.25"⟩ :: receipt2.Items.tail }
      = calculatePoints convAmd64 receipt2 := by
  have hself : ∀ a : Item, paddedItem a a ∨ paddedItem a a := fun a =>
    Or.inl ⟨rfl, [], [], by simp, by simp, by simp⟩
  have h : List.Forall₂ (fun a b => paddedItem a b ∨ paddedItem b a) receipt2.Items
      (⟨"  Gatorade\t ", "2.25"⟩ :: receipt2.Items.tail) := by
    refine List.Forall₂.cons (Or.inl ⟨rfl, [' ', ' '], ['\t', ' '], by decide, by decide, rfl⟩) ?_
    exact List.Forall₂.cons (hself _) (List.Forall₂.cons (hself _)
      (List.Forall₂.cons (hself _) List.Forall₂.nil))
  exact ⟨h, calculatePoints_description_padding convAmd64 receipt2 _ h⟩

/-! ## C15 -/

/-- C15: `calculatePoints` depends on the retailer, the purchase date, the
purchase time, the items and the total only: two receipts with these five
fields in common get the same score whatever their `ID` and `Points` are, and
evaluating a receipt twice gives the same integer. -/
theorem calculatePoints_ignores_id_and_points (conv : F64 → Int)
    (retailer purchaseDate purchaseTime total : String) (items : List Item)
    (id1 id2 : String) (points1 points2 : Int) (receipt : Receipt) :
    calculatePoints conv ⟨id1, retailer, purchaseDate, purchaseTime, items, total, points1⟩
      = calculatePoints conv ⟨id2, retailer, purchaseDate, purchaseTime, items, total, points2⟩ ∧
    calculatePoints conv { receipt with ID := id1, Points := points1 }
      = calculatePoints conv receipt ∧
    calculatePoints conv receipt = calculatePoints conv receipt :=
  ⟨rfl, rfl, rfl⟩

/-! ## C16 -/

/-- C16: store round trip.  In every state of the map, after `processReceipt`
has accepted a `POST` request whose body decodes to a receipt and has stored
it under the generated identifier (the response is 200 with that identifier),
`getPoints` for the path `/receipts/{id}/points` answers 200 with the points
`calculatePoints(receipt)`.  The identifier may be any string without a slash,
as every UUID string is.  For the three receipts of the test the points are
28, 109 and 19. -/
theorem store_round_trip (conv : F64 → Int) (receipts : Store) (receipt : Receipt)
    (id : String) (post get : Request)
    (hpm : post.Method = "POST") (hpb : post.Body = Except.ok receipt)
    (hgm : get.Method = "GET") (hgp : get.Path = "/receipts/" ++ id ++ "/" ++ "points")
    (hid : '/' ∉ id.data) :
    (processReceipt conv id receipts post).2 = ⟨200, ResponseBody.idJSON id⟩ ∧
    (getPoints (processReceipt conv id receipts post).1 get).2
      = ⟨200, ResponseBody.pointsJSON (calculatePoints conv receipt)⟩ ∧
    (getPoints (processReceipt conv sampleID receipts (postReceipt receipt1)).1
      (getPointsOf sampleID)).2 = ⟨200, ResponseBody.pointsJSON 28⟩ ∧
    (getPoints (processReceipt conv sampleID receipts (postReceipt receipt2)).1
      (getPointsOf sampleID)).2 = ⟨200, ResponseBody.pointsJSON 109⟩ ∧
    (getPoints (processReceipt conv sampleID receipts (postReceipt receipt3)).1
      (getPointsOf sampleID)).2 = ⟨200, ResponseBody.pointsJSON 19⟩ := by
  have key : ∀ (rc : Receipt) (i : String) (p g : Request), p.Method = "POST" →
      p.Body = Except.ok rc → g.Method = "GET" → g.Path = "/receipts/" ++ i ++ "/" ++ "points" →
      '/' ∉ i.data →
      (getPoints (processReceipt conv i receipts p).1 g).2
        = ⟨200, ResponseBody.pointsJSON (calculatePoints conv rc)⟩ := by
    intro rc i p g h1 h2 h3 h4 h5
    rw [getPoints_receipts_path _ g i "points" h3 h4 h5,
      processReceipt_accepted conv i receipts p rc h1 h2]
    simp only [if_true]
    rfl
  refine ⟨?_, key receipt id post get hpm hpb hgm hgp hid, ?_, ?_, ?_⟩
  · rw [processReceipt_accepted conv id receipts post receipt hpm hpb]
  · rw [key receipt1 sampleID _ _ rfl rfl rfl rfl (by decide)]
    have : calculatePoints conv receipt1 = 28 := by set_option maxRecDepth 10000 in rfl
    rw [this]
  · rw [key receipt2 sampleID _ _ rfl rfl rfl rfl (by decide)]
    have : calculatePoints conv receipt2 = 109 := by set_option maxRecDepth 10000 in rfl
    rw [this]
  · rw [key receipt3 sampleID _ _ rfl rfl rfl rfl (by decide)]
    have : calculatePoints conv receipt3 = 19 := by set_option maxRecDepth 10000 in rfl
    rw [this]

/-- C16 applies to the first receipt of the test, stored in the empty map. -/
theorem store_round_trip_witness :
    (postReceipt receipt1).Method = "POST" ∧
    (postReceipt receipt1).Body = Except.ok receipt1 ∧
    (getPointsOf sampleID).Method = "GET" ∧
    (getPointsOf sampleID).Path = "/receipts/" ++ sampleID ++ "/" ++ "points" ∧
    '/' ∉ sampleID.data ∧
    (getPoints (processReceipt convAmd64 sampleID emptyStore (postReceipt receipt1)).1
      (getPointsOf sampleID)).2
      = ⟨200, ResponseBody.pointsJSON (calculatePoints convAmd64 receipt1)⟩ :=
  ⟨rfl, rfl, rfl, rfl, by decide,
   (store_round_trip convAmd64 emptyStore receipt1 sampleID (postReceipt receipt1)
     (getPointsOf sampleID) rfl rfl rfl rfl (by decide)).2.1⟩

/-! ## C17 -/

/-- C17: in every state of the map, for a `GET` request with a path
`/receipts/{id}/...` whose identifier is not a key of the map, `getPoints`
answers 404 "Receipt not found" and leaves the map as it is; a response with
points is given only when the identifier of the path (the third piece of the
path split at the slashes) is in the map, and `getPoints` never changes the
map. -/
theorem getPoints_not_found (receipts : Store) (g : Request) (id rest : String)
    (hm : g.Method = "GET") (hp : g.Path = "/receipts/" ++ id ++ "/" ++ rest)
    (hid : '/' ∉ id.data) (hk : receipts id = none) :
    getPoints receipts g = (receipts, ⟨404, ResponseBody.text "Receipt not found"⟩) ∧
    (∀ (g2 : Request) (p : Int), (getPoints receipts g2).2 = ⟨200, ResponseBody.pointsJSON p⟩ →
      ∃ r, receipts ⟨(Split g2.Path.data).getD 2 []⟩ = some r ∧ r.Points = p) ∧
    (∀ g2 : Request, (getPoints receipts g2).1 = receipts) := by
  refine ⟨?_, fun g2 p h => getPoints_score_only_if_stored receipts g2 p h,
    fun g2 => getPoints_store receipts g2⟩
  rw [getPoints_receipts_path receipts g id rest hm hp hid, hk]

/-- C17 applies to a request for the points of an identifier in the empty map. -/
theorem getPoints_not_found_witness :
    (getPointsOf sampleID).Method = "GET" ∧
    (getPointsOf sampleID).Path = "/receipts/" ++ sampleID ++ "/" ++ "points" ∧
    '/' ∉ sampleID.data ∧ emptyStore sampleID = none ∧
    getPoints emptyStore (getPointsOf sampleID)
      = (emptyStore, ⟨404, ResponseBody.text "Receipt not found"⟩) :=
  ⟨rfl, rfl, by decide, rfl,
   (getPoints_not_found emptyStore (getPointsOf sampleID) sampleID "points" rfl rfl
     (by decide) rfl).1⟩

/-! ## C18 -/

/-- C18, as stated, fails: the first receipt of the test has exactly 5 items
and the item-pair rule gives it 10 points, not 5 (with 5 it would score 23, and
the test demands 28). -/
theorem itemPairPoints_five_items_not_five :
    receipt1.Items.length = 5 ∧ itemPairPoints receipt1.Items = 10 ∧
    itemPairPoints receipt1.Items ≠ 5 := by
  decide

/-- C18, amended: for a receipt with exactly 5 items the item-pair rule
contributes 10 points (two pairs, the fifth item earns nothing). -/
theorem itemPairPoints_five_items (items : List Item) (h : items.length = 5) :
    itemPairPoints items = 10 := by
  unfold itemPairPoints
  rw [h]
  rfl

/-- The amended C18 applies to the first receipt of the test. -/
theorem itemPairPoints_five_items_witness :
    receipt1.Items.length = 5 ∧ itemPairPoints receipt1.Items = 10 :=
  ⟨by decide, itemPairPoints_five_items receipt1.Items (by decide)⟩

/-! ## C19 -/

/-- C19 does not hold of the code: the purchase time "15:45" lies between
2:00pm and 4:00pm, but `isInAfternoonRange` compares the hour with 14 and is
false for it, as for every time from "15:00" to "15:59"; the third receipt of
the test scores 19, without the 10 points. -/
theorem isInAfternoonRange_false_after_three (conv : F64 → Int) :
    isInAfternoonRange "15:45" = false ∧ afternoonPoints "15:45" = 0 ∧
    (∀ m, m < 60 → isInAfternoonRange (clockTime 15 m) = false) ∧
    receipt3.PurchaseTime = "15:45" ∧ calculatePoints conv receipt3 = 19 := by
  refine ⟨by decide, by decide, by decide, rfl, ?_⟩
  set_option maxRecDepth 10000 in rfl

/-! ## C20 -/

/-- C20: store invariant.  In every state of the map that is reachable from
the empty map by `processReceipt` and `getPoints` requests, each entry with key
`k` and receipt `r` has `r.ID = k` and `r.Points = calculatePoints(r)`;
`getPoints` requests, and `processReceipt` requests that are rejected (method
other than `POST`, or a body that does not decode), leave the map as it is. -/
theorem reachable_store_invariant (conv : F64 → Int) (receipts : Store)
    (h : Reachable conv receipts) :
    StoreInvariant conv receipts ∧
    (∀ g : Request, (getPoints receipts g).1 = receipts) ∧
    (∀ (newID : String) (r : Request), (r.Method ≠ "POST" ∨ ∃ err, r.Body = Except.error err) →
      (processReceipt conv newID receipts r).1 = receipts) := by
  refine ⟨?_, fun g => getPoints_store receipts g,
    fun newID r hr => processReceipt_rejected conv newID receipts r hr⟩
  induction h with
  | empty => intro k r hk; cases hk
  | process newID r s _ ih => exact processReceipt_invariant conv newID s r ih
  | get r s _ ih => rw [getPoints_store]; exact ih

/-- C20 applies to the map that holds the first receipt of the test. -/
theorem reachable_store_invariant_witness :
    Reachable convAmd64 (processReceipt convAmd64 sampleID emptyStore (postReceipt receipt1)).1 ∧
    StoreInvariant convAmd64
      (processReceipt convAmd64 sampleID emptyStore (postReceipt receipt1)).1 :=
  ⟨Reachable.process sampleID (postReceipt receipt1) emptyStore Reachable.empty,
   (reachable_store_invariant convAmd64 _
     (Reachable.process sampleID (postReceipt receipt1) emptyStore Reachable.empty)).1⟩

end ReceiptProcessor
